import Mathlib

/-!
# Verification of the FMU-explore simulation continuity engine

A shallow embedding, in Lean 4, of the core logic of
`BPL_TEST2_Batch_fmpy_explore.py`: the derivation of initial-value names
from state-variable keys (`stateDictInitial`), the parameter store update
functions (`par`, `init`), the value accessor (`model_get`), the output
variable selector (`extract_variables`), and the two-mode simulation
driver (`simu`).

Python strings are modelled as `List Char`; Python dicts as association
lists with in-place update (`dupdate`); floats as `ℚ`; `None` as
`Option.none` (so stored values have type `Option ℚ`); Python exceptions
as explicit error values (`PyErr`).
-/

set_option autoImplicit false
set_option linter.unusedSectionVars false

namespace FmuExplore

abbrev Name := List Char

abbrev Val := Option ℚ

/-- Association-list model of a Python dict: entries in insertion order. -/
abbrev Dict (K V : Type) := List (K × V)

section DictOps

variable {K V : Type} [DecidableEq K]

/-- `d[k]` as a lookup of the first (in a dict: the unique) binding of `k`. -/
def dlookup : Dict K V → K → Option V
  | [], _ => none
  | (k', v) :: rest, k => if k' = k then some v else dlookup rest k

/-- `d.keys()`. -/
def dkeys (d : Dict K V) : List K := d.map Prod.fst

/-- `d.values()`. -/
def dvalues (d : Dict K V) : List V := d.map Prod.snd

/-- `d[k] = v`: replace the binding of `k` in place, appending if absent. -/
def dupdate : Dict K V → K → V → Dict K V
  | [], k, v => [(k, v)]
  | (k', v') :: rest, k, v =>
      if k' = k then (k, v) :: rest else (k', v') :: dupdate rest k v

/-- `d.update(m)`: apply the updates of `m` in order. -/
def dupdateMany (d : Dict K V) (m : Dict K V) : Dict K V :=
  m.foldl (fun acc kv => dupdate acc kv.1 kv.2) d

/-- `del d[k]` (on a dict every key is bound at most once). -/
def ddelete (d : Dict K V) (k : K) : Dict K V :=
  d.filter (fun kv => !(kv.1 = k : Bool))

/-- Keys of a dict are pairwise distinct (invariant of every real dict). -/
def NodupKeys (d : Dict K V) : Prop := (dkeys d).Nodup

@[simp] theorem dlookup_nil (k : K) : dlookup ([] : Dict K V) k = none := rfl

@[simp] theorem dlookup_cons (k' k : K) (v : V) (rest : Dict K V) :
    dlookup ((k', v) :: rest) k = if k' = k then some v else dlookup rest k := rfl

@[simp] theorem dkeys_nil : dkeys ([] : Dict K V) = [] := rfl

@[simp] theorem dkeys_cons (kv : K × V) (rest : Dict K V) :
    dkeys (kv :: rest) = kv.1 :: dkeys rest := rfl

@[simp] theorem dkeys_append (a b : Dict K V) :
    dkeys (a ++ b) = dkeys a ++ dkeys b := by
  simp [dkeys]

theorem mem_dkeys_iff {d : Dict K V} {k : K} :
    k ∈ dkeys d ↔ ∃ v, (k, v) ∈ d := by
  induction d with
  | nil => simp
  | cons kv rest ih =>
      obtain ⟨k', v'⟩ := kv
      constructor
      · intro h
        rcases List.mem_cons.mp h with h | h
        · exact ⟨v', by simp [h]⟩
        · obtain ⟨v, hv⟩ := ih.mp h
          exact ⟨v, by simp [hv]⟩
      · rintro ⟨v, hv⟩
        rw [dkeys_cons]
        rcases List.mem_cons.mp hv with h | h
        · cases h
          simp
        · exact List.mem_cons_of_mem _ (ih.mpr ⟨v, h⟩)

theorem dlookup_eq_none_iff {d : Dict K V} {k : K} :
    dlookup d k = none ↔ k ∉ dkeys d := by
  induction d with
  | nil => simp
  | cons kv rest ih =>
      obtain ⟨k', v⟩ := kv
      by_cases h : k' = k
      · subst h
        simp [dlookup]
      · rw [dlookup_cons, if_neg h, ih, dkeys_cons]
        constructor
        · intro hk hmem
          rcases List.mem_cons.mp hmem with hh | hh
          · exact h hh.symm
          · exact hk hh
        · intro hk hmem
          exact hk (List.mem_cons_of_mem _ hmem)

theorem dlookup_isSome_of_mem {d : Dict K V} {k : K} (h : k ∈ dkeys d) :
    (dlookup d k).isSome := by
  rcases heq : dlookup d k with _ | v
  · exact absurd h (dlookup_eq_none_iff.mp heq)
  · rfl

theorem mem_of_dlookup_eq_some {d : Dict K V} {k : K} {v : V}
    (h : dlookup d k = some v) : (k, v) ∈ d := by
  induction d with
  | nil => simp at h
  | cons kv rest ih =>
      obtain ⟨k', v'⟩ := kv
      by_cases hk : k' = k
      · subst hk
        rw [dlookup_cons, if_pos rfl] at h
        simp [← Option.some.injEq _ _ |>.mp h]
      · rw [dlookup_cons, if_neg hk] at h
        exact List.mem_cons_of_mem _ (ih h)

@[simp] theorem dlookup_dupdate_self (d : Dict K V) (k : K) (v : V) :
    dlookup (dupdate d k v) k = some v := by
  induction d with
  | nil => simp [dupdate, dlookup]
  | cons kv rest ih =>
      obtain ⟨k', v'⟩ := kv
      by_cases h : k' = k <;> simp [dupdate, h, dlookup, ih]

theorem dlookup_dupdate_ne (d : Dict K V) {k k' : K} (v : V) (h : k ≠ k') :
    dlookup (dupdate d k v) k' = dlookup d k' := by
  induction d with
  | nil => simp [dupdate, dlookup, h]
  | cons kv rest ih =>
      obtain ⟨k0, v0⟩ := kv
      by_cases h0 : k0 = k
      · subst h0
        simp [dupdate, dlookup, h]
      · simp [dupdate, h0, dlookup, ih]

theorem dupdate_eq_self {d : Dict K V} {k : K} {v : V}
    (h : dlookup d k = some v) : dupdate d k v = d := by
  induction d with
  | nil => simp at h
  | cons kv rest ih =>
      obtain ⟨k', v'⟩ := kv
      by_cases hk : k' = k
      · subst hk
        rw [dlookup_cons, if_pos rfl] at h
        rw [dupdate, if_pos rfl, ← Option.some.injEq _ _ |>.mp h]
      · rw [dlookup_cons, if_neg hk] at h
        rw [dupdate, if_neg hk, ih h]

theorem dkeys_dupdate_of_mem {d : Dict K V} {k : K} (v : V) (h : k ∈ dkeys d) :
    dkeys (dupdate d k v) = dkeys d := by
  induction d with
  | nil => simp at h
  | cons kv rest ih =>
      obtain ⟨k', v'⟩ := kv
      by_cases hk : k' = k
      · simp [dupdate, hk]
      · rw [dkeys_cons] at h
        rcases List.mem_cons.mp h with hh | hh
        · exact absurd hh.symm hk
        · rw [dupdate, if_neg hk, dkeys_cons, dkeys_cons, ih hh]

theorem dupdate_of_not_mem {d : Dict K V} {k : K} (v : V) (h : k ∉ dkeys d) :
    dupdate d k v = d ++ [(k, v)] := by
  induction d with
  | nil => simp [dupdate]
  | cons kv rest ih =>
      obtain ⟨k', v'⟩ := kv
      rw [dkeys_cons] at h
      have h1 : k' ≠ k := fun hh => h (by simp [hh])
      have h2 : k ∉ dkeys rest := fun hh => h (List.mem_cons_of_mem _ hh)
      rw [dupdate, if_neg h1, ih h2]
      simp

theorem dkeys_dupdate_of_not_mem {d : Dict K V} {k : K} (v : V) (h : k ∉ dkeys d) :
    dkeys (dupdate d k v) = dkeys d ++ [k] := by
  rw [dupdate_of_not_mem v h]
  simp [dkeys]

theorem nodupKeys_dupdate {d : Dict K V} (k : K) (v : V) (h : NodupKeys d) :
    NodupKeys (dupdate d k v) := by
  by_cases hk : k ∈ dkeys d
  · rwa [NodupKeys, dkeys_dupdate_of_mem v hk]
  · rw [NodupKeys, dkeys_dupdate_of_not_mem v hk]
    refine List.Nodup.append h (by simp) ?_
    intro a ha hb
    rw [List.mem_singleton] at hb
    subst hb
    exact hk ha

theorem nodupKeys_cons_iff {kv : K × V} {rest : Dict K V} :
    NodupKeys (kv :: rest) ↔ kv.1 ∉ dkeys rest ∧ NodupKeys rest := by
  simp [NodupKeys]

theorem dlookup_dupdateMany_of_not_mem {d : Dict K V} {m : Dict K V} {k : K}
    (h : k ∉ dkeys m) : dlookup (dupdateMany d m) k = dlookup d k := by
  induction m generalizing d with
  | nil => rfl
  | cons kv rest ih =>
      obtain ⟨k', v'⟩ := kv
      rw [dkeys_cons] at h
      have h1 : k' ≠ k := fun hh => h (by simp [hh])
      have h2 : k ∉ dkeys rest := fun hh => h (List.mem_cons_of_mem _ hh)
      rw [dupdateMany, List.foldl_cons]
      have := ih (d := dupdate d k' v') h2
      rw [dupdateMany] at this
      rw [this]
      exact dlookup_dupdate_ne _ _ h1

theorem dlookup_dupdateMany_of_mem {d : Dict K V} {m : Dict K V} {k : K} {v : V}
    (hnd : NodupKeys m) (hmem : (k, v) ∈ m) :
    dlookup (dupdateMany d m) k = some v := by
  induction m generalizing d with
  | nil => simp at hmem
  | cons kv rest ih =>
      obtain ⟨k', v'⟩ := kv
      obtain ⟨hk, hndr⟩ := nodupKeys_cons_iff.mp hnd
      rw [dupdateMany, List.foldl_cons]
      rcases List.mem_cons.mp hmem with hh | hh
      · obtain ⟨h1, h2⟩ : k' = k ∧ v' = v := by
          have := congrArg Prod.fst hh.symm
          have h2 := congrArg Prod.snd hh.symm
          exact ⟨this, h2⟩
        subst h1; subst h2
        have hk2 : k' ∉ dkeys rest := hk
        have := dlookup_dupdateMany_of_not_mem (d := dupdate d k' v') hk2
        rw [dupdateMany] at this
        rw [this, dlookup_dupdate_self]
      · have := ih hndr hh (d := dupdate d k' v')
        rw [dupdateMany] at this
        exact this

theorem dupdateMany_eq_self {d : Dict K V} {m : Dict K V}
    (h : ∀ kv ∈ m, dlookup d kv.1 = some kv.2) : dupdateMany d m = d := by
  induction m with
  | nil => rfl
  | cons kv rest ih =>
      rw [dupdateMany, List.foldl_cons, dupdate_eq_self (h kv (by simp))]
      exact ih (fun kv' h' => h kv' (by simp [h']))

theorem dupdateMany_append (d : Dict K V) (m1 m2 : Dict K V) :
    dupdateMany d (m1 ++ m2) = dupdateMany (dupdateMany d m1) m2 := by
  simp [dupdateMany, List.foldl_append]

theorem dupdateMany_fresh {d : Dict K V} {m : Dict K V}
    (hfresh : ∀ k ∈ dkeys m, k ∉ dkeys d) (hnd : NodupKeys m) :
    dupdateMany d m = d ++ m := by
  induction m generalizing d with
  | nil => simp [dupdateMany]
  | cons kv rest ih =>
      obtain ⟨k, v⟩ := kv
      obtain ⟨hknotin, hndr⟩ := nodupKeys_cons_iff.mp hnd
      rw [dupdateMany, List.foldl_cons, ← dupdateMany]
      have hk : k ∉ dkeys d := hfresh k (by simp)
      have hfresh' : ∀ k' ∈ dkeys rest, k' ∉ dkeys (dupdate d k v) := by
        intro k' hk'
        rw [dkeys_dupdate_of_not_mem v hk]
        intro hmem
        rcases List.mem_append.mp hmem with hh | hh
        · exact hfresh k' (by simp [hk']) hh
        · rw [List.mem_singleton] at hh
          subst hh
          exact hknotin hk'
      rw [ih hfresh' hndr, dupdate_of_not_mem v hk]
      simp

theorem dupdateMany_nil_of_nodup {m : Dict K V} (hnd : NodupKeys m) :
    dupdateMany ([] : Dict K V) m = m := by
  rw [dupdateMany_fresh (fun k _ => by simp) hnd]
  simp

theorem dlookup_append_of_some {a b : Dict K V} {k : K} {v : V}
    (h : dlookup a k = some v) : dlookup (a ++ b) k = some v := by
  induction a with
  | nil => simp at h
  | cons kv rest ih =>
      obtain ⟨k', v'⟩ := kv
      by_cases hk : k' = k
      · rw [dlookup_cons, if_pos hk] at h
        rw [List.cons_append, dlookup_cons, if_pos hk, h]
      · rw [dlookup_cons, if_neg hk] at h
        rw [List.cons_append, dlookup_cons, if_neg hk, ih h]

theorem dlookup_append_of_none {a b : Dict K V} {k : K}
    (h : dlookup a k = none) : dlookup (a ++ b) k = dlookup b k := by
  induction a with
  | nil => simp
  | cons kv rest ih =>
      obtain ⟨k', v'⟩ := kv
      by_cases hk : k' = k
      · rw [dlookup_cons, if_pos hk] at h
        simp at h
      · rw [dlookup_cons, if_neg hk] at h
        rw [List.cons_append, dlookup_cons, if_neg hk, ih h]

theorem dlookup_filter {d : Dict K V} {p : K × V → Bool} {k : K}
    (h : ∀ kv ∈ d, kv.1 = k → p kv = true) :
    dlookup (d.filter p) k = dlookup d k := by
  induction d with
  | nil => simp
  | cons kv rest ih =>
      obtain ⟨k', v'⟩ := kv
      have ihr := ih (fun kv h' => h kv (List.mem_cons_of_mem _ h'))
      by_cases hk : k' = k
      · subst hk
        have hp := h (k', v') (by simp) rfl
        simp [List.filter_cons, hp, dlookup]
      · by_cases hp : p (k', v') = true
        · simp [List.filter_cons, hp, dlookup, hk, ihr]
        · rw [Bool.not_eq_true] at hp
          simp [List.filter_cons, hp, dlookup, hk, ihr]

theorem dlookup_filter_of_not {d : Dict K V} {p : K × V → Bool} {k : K}
    (h : ∀ kv ∈ d, kv.1 = k → p kv = false) :
    dlookup (d.filter p) k = none := by
  induction d with
  | nil => simp
  | cons kv rest ih =>
      obtain ⟨k', v'⟩ := kv
      have ihr := ih (fun kv h' => h kv (List.mem_cons_of_mem _ h'))
      by_cases hp : p (k', v') = true
      · have hk : k' ≠ k := fun heq => by
          have := h (k', v') (by simp) heq
          rw [this] at hp
          exact Bool.false_ne_true hp
        simp [List.filter_cons, hp, dlookup, hk, ihr]
      · rw [Bool.not_eq_true] at hp
        simp [List.filter_cons, hp, ihr]

/-- Distinct values force distinct keys: used for derived initial-value
names, which are pairwise distinct in any real model. -/
theorem dlookup_inj_of_nodup_values {d : Dict K V} (hnd : (dvalues d).Nodup)
    {k1 k2 : K} {v : V} (h1 : dlookup d k1 = some v) (h2 : dlookup d k2 = some v) :
    k1 = k2 := by
  induction d with
  | nil => simp at h1
  | cons kv rest ih =>
      obtain ⟨k0, v0⟩ := kv
      have hnd' : v0 ∉ dvalues rest ∧ (dvalues rest).Nodup := by
        simpa [dvalues] using hnd
      by_cases hk1 : k0 = k1 <;> by_cases hk2 : k0 = k2
      · rw [← hk1, ← hk2]
      · rw [dlookup_cons, if_pos hk1] at h1
        rw [dlookup_cons, if_neg hk2] at h2
        have hv : v0 = v := by injection h1
        subst hv
        have hmem := List.mem_map_of_mem Prod.snd (mem_of_dlookup_eq_some h2)
        exact absurd (show v0 ∈ dvalues rest from hmem) hnd'.1
      · rw [dlookup_cons, if_neg hk1] at h1
        rw [dlookup_cons, if_pos hk2] at h2
        have hv : v0 = v := by injection h2
        subst hv
        have hmem := List.mem_map_of_mem Prod.snd (mem_of_dlookup_eq_some h1)
        exact absurd (show v0 ∈ dvalues rest from hmem) hnd'.1
      · rw [dlookup_cons, if_neg hk1] at h1
        rw [dlookup_cons, if_neg hk2] at h2
        exact ih hnd'.2 h1 h2

end DictOps

end FmuExplore

namespace FmuExplore

/-! ## Python string primitives on `List Char` -/

/-- Python `s[-n:]` (for `n ≥ 1`): the last `n` characters, or all of `s`
when `n` exceeds its length. -/
def takeRight (n : Nat) (s : List Char) : List Char := s.drop (s.length - n)

/-- Python `s[:-n]` (for `n ≥ 1`): all but the last `n` characters. -/
def dropRight (n : Nat) (s : List Char) : List Char := s.take (s.length - n)

/-- Python `s[-n]` (for `n ≥ 1`): `none` models the `IndexError` raised
when the index is out of range. -/
def negGet (s : List Char) (n : Nat) : Option Char :=
  if 1 ≤ n ∧ n ≤ s.length then s.get? (s.length - n) else none

/-- Python `needle in haystack` (substring containment). -/
def isSubstring (n : List Char) : List Char → Bool
  | [] => n.isEmpty
  | c :: t => n.isPrefixOf (c :: t) || isSubstring n t

theorem takeRight_append_of_le {b : List Char} (a : List Char) {n : Nat}
    (h : n ≤ b.length) : takeRight n (a ++ b) = takeRight n b := by
  unfold takeRight
  rw [List.length_append]
  have : a.length + b.length - n = a.length + (b.length - n) := by omega
  rw [this, ← List.drop_drop, List.drop_left]

theorem takeRight_all {s : List Char} : takeRight s.length s = s := by
  simp [takeRight]

theorem dropRight_append_of_le {b : List Char} (a : List Char) {n : Nat}
    (h : n ≤ b.length) : dropRight n (a ++ b) = a ++ dropRight n b := by
  unfold dropRight
  rw [List.length_append]
  have : a.length + b.length - n = a.length + (b.length - n) := by omega
  rw [this, List.take_append_eq_append_take, List.take_of_length_le (by omega)]
  congr 1
  congr 1
  omega

theorem negGet_append_of_le {b : List Char} (a : List Char) {n : Nat}
    (h1 : 1 ≤ n) (h2 : n ≤ b.length) : negGet (a ++ b) n = negGet b n := by
  unfold negGet
  rw [List.length_append]
  rw [if_pos (by omega), if_pos ⟨h1, h2⟩]
  simp only [List.get?_eq_getElem?]
  rw [List.getElem?_append_right (by omega)]
  congr 1
  omega

end FmuExplore

namespace FmuExplore

/-! ## Derivation of initial-value names (`stateDictInitial`, lines 134-151)

The Python loop, for each state key:
```
if not key[-1] == ']':
     if key[-3:] == 'I.y':   stateDictInitial[key] = key[:-10]+'I_start'
     elif key[-3:] == 'D.x': stateDictInitial[key] = key[:-10]+'D_start'
     else:                   stateDictInitial[key] = key+'_start'
elif key[-3] == '[':  stateDictInitial[key] = key[:-3]+'_start'+key[-3:]
elif key[-4] == '[':  stateDictInitial[key] = key[:-4]+'_start'+key[-4:]
elif key[-5] == '[':  stateDictInitial[key] = key[:-5]+'_start'+key[-5:]
else:
    print('The state vector has more than 1000 states')
    break
```
`.overflow` is the final `else` (print + `break`); `.indexError` models the
`IndexError` Python raises when a negative index is out of range.
-/

inductive DeriveResult where
  | ok (name : Name)
  | overflow
  | indexError
  deriving DecidableEq, Repr

/-- The suffix-rule derivation applied to one state key. -/
def deriveInitial (key : Name) : DeriveResult :=
  match negGet key 1 with
  | none => .indexError
  | some c1 =>
    if ¬ c1 = ']' then
      if takeRight 3 key = ("I.y").toList then .ok (dropRight 10 key ++ ("I_start").toList)
      else if takeRight 3 key = ("D.x").toList then .ok (dropRight 10 key ++ ("D_start").toList)
      else .ok (key ++ ("_start").toList)
    else
      match negGet key 3 with
      | none => .indexError
      | some c3 =>
        if c3 = '[' then .ok (dropRight 3 key ++ ("_start").toList ++ takeRight 3 key)
        else
          match negGet key 4 with
          | none => .indexError
          | some c4 =>
            if c4 = '[' then .ok (dropRight 4 key ++ ("_start").toList ++ takeRight 4 key)
            else
              match negGet key 5 with
              | none => .indexError
              | some c5 =>
                if c5 = '[' then .ok (dropRight 5 key ++ ("_start").toList ++ takeRight 5 key)
                else .overflow

/-- The whole startup loop over the state keys: `some m` is the dict built
(`break` on an unrecognized suffix keeps what was built so far and
continues the script), `none` is a crash of the startup script. -/
def buildStateDictInitial : List Name → Option (Dict Name Name)
  | [] => some []
  | key :: rest =>
    match deriveInitial key with
    | .ok name => (buildStateDictInitial rest).map (fun m => (key, name) :: m)
    | .overflow => some []
    | .indexError => none

/-- `stateDictInitialLoc` (lines 153-155): identity dict on the derived
initial-value names. -/
def stateDictInitialLocOf (sdi : Dict Name Name) : Dict Name Name :=
  (dvalues sdi).foldl (fun acc v => dupdate acc v v) []

end FmuExplore

namespace FmuExplore

theorem digit_ne_lbracket {c : Char} (h : c.isDigit = true) : ¬ c = '[' := by
  intro heq
  subst heq
  exact absurd h (by decide)

theorem buildStateDictInitial_append_overflow (pre : List Name) (key : Name)
    (post : List Name) (h : deriveInitial key = .overflow) :
    buildStateDictInitial (pre ++ key :: post) = buildStateDictInitial pre := by
  induction pre with
  | nil =>
      simp [buildStateDictInitial, h]
  | cons k rest ih =>
      rw [List.cons_append, buildStateDictInitial, buildStateDictInitial]
      rcases deriveInitial k with n | _ | _
      · rw [ih]
      · rfl
      · rfl

end FmuExplore

namespace FmuExplore

/-- Claim C2 (counterexample): with state keys `a[1234]` and `b`, the
derivation loop prints a diagnostic and `break`s: startup continues
(the build yields a dict instead of aborting) and the supported key `b`
is left without a derived initial-value name even though its own
derivation would succeed. -/
theorem C2_break_is_not_fatal_counterexample :
    buildStateDictInitial [("a[1234]").toList, ("b").toList] = some [] ∧
      deriveInitial ("b").toList = .ok (("b_start").toList) ∧
      ("b").toList ∉ dkeys ([] : Dict Name Name) := by
  refine ⟨by decide, by decide, by decide⟩

/-- Claim C2 (amended): the derived-name mapping is total over the State
Entry keys whenever every key has a supported shape; a key whose suffix no
rule matches makes the loop stop early (a printed diagnostic, not an
abort), so that key and every later key stay unmapped while the dict built
so far is kept. -/
theorem C2_stateDictInitial_totality :
    (∀ keys : List Name, (∀ k ∈ keys, ∃ n, deriveInitial k = .ok n) →
      ∃ m, buildStateDictInitial keys = some m ∧
        ∀ k ∈ keys, ∃ n, deriveInitial k = .ok n ∧ (k, n) ∈ m) ∧
    (∀ (pre : List Name) (key : Name) (post : List Name),
      deriveInitial key = .overflow →
      buildStateDictInitial (pre ++ key :: post) = buildStateDictInitial pre) := by
  constructor
  · intro keys h
    induction keys with
    | nil => exact ⟨[], rfl, by simp⟩
    | cons k rest ih =>
        obtain ⟨n, hn⟩ := h k (by simp)
        obtain ⟨m, hm, hmem⟩ := ih (fun k' hk' => h k' (by simp [hk']))
        refine ⟨(k, n) :: m, ?_, ?_⟩
        · rw [buildStateDictInitial, hn, hm]
          rfl
        · intro k' hk'
          rcases List.mem_cons.mp hk' with hh | hh
          · subst hh
            exact ⟨n, hn, by simp⟩
          · obtain ⟨n', hn', hmem'⟩ := hmem k' hh
            exact ⟨n', hn', by simp [hmem']⟩
  · exact buildStateDictInitial_append_overflow

/-- Witness for C2 (amended) at the concrete key lists
`["bioreactor.m[1]"]` and `["x"] ++ ["a[1234]"] ++ ["y"]`. -/
theorem C2_stateDictInitial_totality_witness :
    (∃ m, buildStateDictInitial [("bioreactor.m[1]").toList] = some m ∧
      ∀ k ∈ [("bioreactor.m[1]").toList], ∃ n, deriveInitial k = .ok n ∧ (k, n) ∈ m) ∧
    buildStateDictInitial ([("x").toList] ++ ("a[1234]").toList :: [("y").toList]) =
      buildStateDictInitial [("x").toList] := by
  constructor
  · exact C2_stateDictInitial_totality.1 [("bioreactor.m[1]").toList]
      (by intro k hk; rw [List.mem_singleton] at hk; subst hk
          exact ⟨("bioreactor.m_start[1]").toList, by decide⟩)
  · exact C2_stateDictInitial_totality.2 [("x").toList] (("a[1234]").toList)
      [("y").toList] (by decide)

end FmuExplore

namespace FmuExplore

/-- Claim C3: the derived initial-value name follows the documented rule
table. A key ending in `I.y` has its trailing 10 characters stripped and
`I_start` appended; a key ending in `D.x` has its trailing 10 characters
stripped and `D_start` appended; a key ending in a bracket suffix whose
digit block is 1, 2 or 3 characters long has `_start` inserted before the
re-appended bracket suffix; any other (non-bracket-terminated) key gets
`_start` appended; and `bioreactor.m[1]` derives to
`bioreactor.m_start[1]`. -/
theorem C3_initial_name_rule_table :
    (∀ p : Name, deriveInitial (p ++ ("I.y").toList) =
        .ok (dropRight 10 (p ++ ("I.y").toList) ++ ("I_start").toList)) ∧
    (∀ p : Name, deriveInitial (p ++ ("D.x").toList) =
        .ok (dropRight 10 (p ++ ("D.x").toList) ++ ("D_start").toList)) ∧
    (∀ (p d : Name), 1 ≤ d.length → d.length ≤ 3 → (∀ c ∈ d, c.isDigit) →
        deriveInitial (p ++ '[' :: (d ++ [']'])) =
          .ok (p ++ ("_start").toList ++ '[' :: (d ++ [']']))) ∧
    (∀ (key : Name) (c : Char), negGet key 1 = some c → ¬ c = ']' →
        ¬ takeRight 3 key = ("I.y").toList → ¬ takeRight 3 key = ("D.x").toList →
        deriveInitial key = .ok (key ++ ("_start").toList)) ∧
    deriveInitial (("bioreactor.m[1]").toList) = .ok (("bioreactor.m_start[1]").toList) := by
  refine ⟨?_, ?_, ?_, ?_, by decide⟩
  · intro p
    have h1 : negGet (p ++ ("I.y").toList) 1 = some 'y' := by
      rw [negGet_append_of_le p (by omega) (by decide)]
      decide
    have h2 : takeRight 3 (p ++ (['I', '.', 'y'] : Name)) = ['I', '.', 'y'] := by
      rw [takeRight_append_of_le p (by decide)]
      decide
    unfold deriveInitial
    rw [h1]
    simp [h2]
  · intro p
    have h1 : negGet (p ++ ("D.x").toList) 1 = some 'x' := by
      rw [negGet_append_of_le p (by omega) (by decide)]
      decide
    have h2 : takeRight 3 (p ++ (['D', '.', 'x'] : Name)) = ['D', '.', 'x'] := by
      rw [takeRight_append_of_le p (by decide)]
      decide
    unfold deriveInitial
    rw [h1]
    simp [h2]
  · intro p d hlen1 hlen3 hdig
    interval_cases hd : d.length
    · obtain ⟨a, rfl⟩ := List.length_eq_one.mp hd
      have ha : a.isDigit := hdig a (by simp)
      have hsuffix : ('[' :: ([a] ++ [']'])) = (['[', a, ']'] : Name) := by simp
      rw [hsuffix]
      have h1 : negGet (p ++ ['[', a, ']']) 1 = some ']' := by
        rw [negGet_append_of_le p (by omega) (by simp)]
        rfl
      have h3 : negGet (p ++ ['[', a, ']']) 3 = some '[' := by
        rw [negGet_append_of_le p (by omega) (by simp)]
        rfl
      have htr : takeRight 3 (p ++ ['[', a, ']']) = ['[', a, ']'] := by
        rw [takeRight_append_of_le p (by simp)]
        rw [show (3 : Nat) = (['[', a, ']'] : Name).length from by simp, takeRight_all]
      have hdr : dropRight 3 (p ++ ['[', a, ']']) = p := by
        rw [dropRight_append_of_le p (by simp)]
        simp [dropRight]
      unfold deriveInitial
      rw [h1]
      simp [h3, htr, hdr]
    · obtain ⟨a, b, rfl⟩ := List.length_eq_two.mp hd
      have ha : a.isDigit := hdig a (by simp)
      have hsuffix : ('[' :: ([a, b] ++ [']'])) = (['[', a, b, ']'] : Name) := by simp
      rw [hsuffix]
      have h1 : negGet (p ++ ['[', a, b, ']']) 1 = some ']' := by
        rw [negGet_append_of_le p (by omega) (by simp)]
        rfl
      have h3 : negGet (p ++ ['[', a, b, ']']) 3 = some a := by
        rw [negGet_append_of_le p (by omega) (by simp)]
        rfl
      have h4 : negGet (p ++ ['[', a, b, ']']) 4 = some '[' := by
        rw [negGet_append_of_le p (by omega) (by simp)]
        rfl
      have htr : takeRight 4 (p ++ ['[', a, b, ']']) = ['[', a, b, ']'] := by
        rw [takeRight_append_of_le p (by simp)]
        rw [show (4 : Nat) = (['[', a, b, ']'] : Name).length from by simp, takeRight_all]
      have hdr : dropRight 4 (p ++ ['[', a, b, ']']) = p := by
        rw [dropRight_append_of_le p (by simp)]
        simp [dropRight]
      unfold deriveInitial
      rw [h1]
      simp [h3, h4, htr, hdr, digit_ne_lbracket ha]
    · obtain ⟨a, b, c, rfl⟩ := List.length_eq_three.mp hd
      have ha : a.isDigit := hdig a (by simp)
      have hb : b.isDigit := hdig b (by simp)
      have hsuffix : ('[' :: ([a, b, c] ++ [']'])) = (['[', a, b, c, ']'] : Name) := by simp
      rw [hsuffix]
      have h1 : negGet (p ++ ['[', a, b, c, ']']) 1 = some ']' := by
        rw [negGet_append_of_le p (by omega) (by simp)]
        rfl
      have h3 : negGet (p ++ ['[', a, b, c, ']']) 3 = some b := by
        rw [negGet_append_of_le p (by omega) (by simp)]
        rfl
      have h4 : negGet (p ++ ['[', a, b, c, ']']) 4 = some a := by
        rw [negGet_append_of_le p (by omega) (by simp)]
        rfl
      have h5 : negGet (p ++ ['[', a, b, c, ']']) 5 = some '[' := by
        rw [negGet_append_of_le p (by omega) (by simp)]
        rfl
      have htr : takeRight 5 (p ++ ['[', a, b, c, ']']) = ['[', a, b, c, ']'] := by
        rw [takeRight_append_of_le p (by simp)]
        rw [show (5 : Nat) = (['[', a, b, c, ']'] : Name).length from by simp, takeRight_all]
      have hdr : dropRight 5 (p ++ ['[', a, b, c, ']']) = p := by
        rw [dropRight_append_of_le p (by simp)]
        simp [dropRight]
      unfold deriveInitial
      rw [h1]
      simp [h3, h4, h5, htr, hdr, digit_ne_lbracket ha, digit_ne_lbracket hb]
  · intro key c h1 hc hIy hDx
    have hIy' : ¬ takeRight 3 key = (['I', '.', 'y'] : Name) := by simpa using hIy
    have hDx' : ¬ takeRight 3 key = (['D', '.', 'x'] : Name) := by simpa using hDx
    unfold deriveInitial
    rw [h1]
    simp [hc, hIy', hDx']

/-- Witness for C3 at `p = "bioreactor.m"`, `d = "1"`, and at the
plain key `"bioreactor.V"`. -/
theorem C3_initial_name_rule_table_witness :
    deriveInitial (("bioreactor.m").toList ++ '[' :: (("1").toList ++ [']'])) =
      .ok (("bioreactor.m").toList ++ ("_start").toList ++ '[' :: (("1").toList ++ [']'])) ∧
    deriveInitial (("bioreactor.V").toList) = .ok ((("bioreactor.V").toList ++ ("_start").toList)) := by
  constructor
  · exact C3_initial_name_rule_table.2.2.1 (("bioreactor.m").toList) (("1").toList)
      (by decide) (by decide) (by decide)
  · exact C3_initial_name_rule_table.2.2.2.1 (("bioreactor.V").toList) 'V'
      (by decide) (by decide) (by decide) (by decide)

end FmuExplore

namespace FmuExplore

/-! ## Parameter store updates (`par`, lines 343-357, and `init`, lines 360-370) -/

inductive Diag where
  | unknownParameter (k : Name)
  | requirementFailed (i : Nat)
  | notAnInitial (k : Name)
  deriving DecidableEq, Repr

/-- The shared staging loop of `par` and `init`: keys passing the filter
are staged into a fresh dict (`x_temp` / `x_init`), the rest get a printed
diagnostic and are skipped. -/
def stage (p : Name → Bool) (mk : Name → Diag) :
    List (Name × Val) → Dict Name Val × List Diag → Dict Name Val × List Diag
  | [], acc => acc
  | kv :: rest, (a, ds) =>
      if p kv.1 then stage p mk rest (dupdate a kv.1 kv.2, ds)
      else stage p mk rest (a, ds ++ [mk kv.1])

theorem stage_fst (p : Name → Bool) (mk : Name → Diag) (u : List (Name × Val))
    (a : Dict Name Val) (ds : List Diag) :
    (stage p mk u (a, ds)).1 = dupdateMany a (u.filter (fun kv => p kv.1)) := by
  induction u generalizing a ds with
  | nil => rfl
  | cons kv rest ih =>
      by_cases hp : p kv.1 = true
      · rw [stage, if_pos hp, ih, List.filter_cons, hp]
        rfl
      · rw [Bool.not_eq_true] at hp
        rw [stage, if_neg (by simp [hp]), ih, List.filter_cons, hp]
        rfl

theorem stage_snd (p : Name → Bool) (mk : Name → Diag) (u : List (Name × Val))
    (a : Dict Name Val) (ds : List Diag) :
    (stage p mk u (a, ds)).2 =
      ds ++ (u.filter (fun kv => !(p kv.1))).map (fun kv => mk kv.1) := by
  induction u generalizing a ds with
  | nil => simp [stage]
  | cons kv rest ih =>
      by_cases hp : p kv.1 = true
      · rw [stage, if_pos hp, ih, List.filter_cons]
        simp [hp]
      · rw [Bool.not_eq_true] at hp
        rw [stage, if_neg (by simp [hp]), ih, List.filter_cons]
        simp [hp]

/-- `par()` (lines 343-357): stage the updates whose key is a known
parameter, report the unknown ones, commit the staged updates, then
evaluate every `parCheck` requirement against the post-update store and
report (only) the ones that fail. -/
def par (parDict : Dict Name Val) (parCheck : List (Dict Name Val → Bool))
    (updates : List (Name × Val)) : Dict Name Val × List Diag :=
  let staged := stage (fun k => decide (k ∈ dkeys parDict)) Diag.unknownParameter updates ([], [])
  let d := dupdateMany parDict staged.1
  let parErrors := (List.range parCheck.length).filter
    (fun i => ((parCheck.get? i).map (fun c => !(c d))).getD false)
  (d, staged.2 ++ parErrors.map Diag.requirementFailed)

/-- `init()` (lines 360-370): stage exactly the updates whose key contains
the substring `_start`, report the rest, commit the staged updates.
No membership test against the known-parameter set and no requirement
evaluation happens. -/
def init (parDict : Dict Name Val) (updates : List (Name × Val)) :
    Dict Name Val × List Diag :=
  let staged := stage (fun k => isSubstring (("_start").toList) k) Diag.notAnInitial updates ([], [])
  (dupdateMany parDict staged.1, staged.2)

end FmuExplore

namespace FmuExplore

section MoreDict

variable {K V : Type} [DecidableEq K]

theorem nodupKeys_dupdateMany {d : Dict K V} (m : Dict K V) (h : NodupKeys d) :
    NodupKeys (dupdateMany d m) := by
  induction m generalizing d with
  | nil => exact h
  | cons kv rest ih =>
      rw [dupdateMany, List.foldl_cons, ← dupdateMany]
      exact ih (nodupKeys_dupdate kv.1 kv.2 h)

theorem mem_dkeys_dupdate {d : Dict K V} {k k' : K} {v : V}
    (h : k' ∈ dkeys (dupdate d k v)) : k' ∈ dkeys d ∨ k' = k := by
  by_cases hk : k ∈ dkeys d
  · rw [dkeys_dupdate_of_mem v hk] at h
    exact Or.inl h
  · rw [dkeys_dupdate_of_not_mem v hk] at h
    rcases List.mem_append.mp h with hh | hh
    · exact Or.inl hh
    · exact Or.inr (List.mem_singleton.mp hh)

theorem mem_dkeys_dupdateMany {d m : Dict K V} {k : K}
    (h : k ∈ dkeys (dupdateMany d m)) : k ∈ dkeys d ∨ k ∈ dkeys m := by
  induction m generalizing d with
  | nil => exact Or.inl h
  | cons kv rest ih =>
      rw [dupdateMany, List.foldl_cons, ← dupdateMany] at h
      rcases ih h with hh | hh
      · rcases mem_dkeys_dupdate hh with h3 | h3
        · exact Or.inl h3
        · exact Or.inr (by simp [h3])
      · exact Or.inr (by simp [hh])

theorem dkeys_dupdateMany_of_subset {d m : Dict K V} (h : ∀ k ∈ dkeys m, k ∈ dkeys d) :
    dkeys (dupdateMany d m) = dkeys d := by
  induction m generalizing d with
  | nil => rfl
  | cons kv rest ih =>
      rw [dupdateMany, List.foldl_cons, ← dupdateMany]
      have hk : kv.1 ∈ dkeys d := h kv.1 (by simp)
      rw [ih (fun k hk' => by rw [dkeys_dupdate_of_mem kv.2 hk]; exact h k (by simp [hk'])),
        dkeys_dupdate_of_mem kv.2 hk]

theorem nodup_filter_keys {u : List (K × V)} (h : (u.map Prod.fst).Nodup)
    (p : K × V → Bool) : ((u.filter p).map Prod.fst).Nodup :=
  List.Nodup.sublist (List.Sublist.map Prod.fst (List.filter_sublist u)) h

end MoreDict

end FmuExplore

namespace FmuExplore

theorem par_fst (parDict : Dict Name Val) (parCheck : List (Dict Name Val → Bool))
    (updates : List (Name × Val)) :
    (par parDict parCheck updates).1 = dupdateMany parDict
      (dupdateMany [] (updates.filter (fun kv => decide (kv.1 ∈ dkeys parDict)))) := by
  show dupdateMany parDict
      (stage (fun k => decide (k ∈ dkeys parDict)) Diag.unknownParameter updates ([], [])).1 = _
  rw [stage_fst]

theorem par_snd (parDict : Dict Name Val) (parCheck : List (Dict Name Val → Bool))
    (updates : List (Name × Val)) :
    (par parDict parCheck updates).2 =
      ((updates.filter (fun kv => !(decide (kv.1 ∈ dkeys parDict)))).map
        (fun kv => Diag.unknownParameter kv.1)) ++
      ((List.range parCheck.length).filter
        (fun i => ((parCheck.get? i).map
          (fun c => !(c (par parDict parCheck updates).1))).getD false)).map
        Diag.requirementFailed := by
  show (stage (fun k => decide (k ∈ dkeys parDict)) Diag.unknownParameter updates ([], [])).2
      ++ _ = _
  rw [stage_snd]
  rfl

theorem init_fst (parDict : Dict Name Val) (updates : List (Name × Val)) :
    (init parDict updates).1 = dupdateMany parDict
      (dupdateMany [] (updates.filter (fun kv => isSubstring (("_start").toList) kv.1))) := by
  show dupdateMany parDict
      (stage (fun k => isSubstring (("_start").toList) k) Diag.notAnInitial updates ([], [])).1 = _
  rw [stage_fst]

theorem init_snd (parDict : Dict Name Val) (updates : List (Name × Val)) :
    (init parDict updates).2 =
      (updates.filter (fun kv => !(isSubstring (("_start").toList) kv.1))).map
        (fun kv => Diag.notAnInitial kv.1) := by
  show (stage (fun k => isSubstring (("_start").toList) k) Diag.notAnInitial updates ([], [])).2 = _
  rw [stage_snd]
  rfl

/-- The dict staged from a filtered update list only mentions keys of
updates that pass the filter. -/
theorem mem_dkeys_staged {updates : List (Name × Val)} {p : Name × Val → Bool} {k : Name}
    (h : k ∈ dkeys (dupdateMany ([] : Dict Name Val) (updates.filter p))) :
    ∃ v, (k, v) ∈ updates ∧ p (k, v) = true := by
  rcases mem_dkeys_dupdateMany h with hh | hh
  · simp at hh
  · obtain ⟨v, hv⟩ := mem_dkeys_iff.mp hh
    obtain ⟨hmem, hp⟩ := List.mem_filter.mp hv
    exact ⟨v, hmem, hp⟩

end FmuExplore

namespace FmuExplore

/-- Claim C6: `par` commits every update whose key is a known parameter;
an unknown key only gets a non-fatal diagnostic and is skipped (the store
is unchanged for that key and the remaining updates still go through);
keys not mentioned are untouched; every requirement that fails on the
post-update store is reported; and the committed store never depends on
the requirement list (fail-open). -/
theorem C6_par_validation_fail_open (parDict : Dict Name Val)
    (parCheck : List (Dict Name Val → Bool)) (updates : List (Name × Val))
    (hu : (updates.map Prod.fst).Nodup) :
    (∀ k v, (k, v) ∈ updates → k ∈ dkeys parDict →
      dlookup (par parDict parCheck updates).1 k = some v) ∧
    (∀ k v, (k, v) ∈ updates → k ∉ dkeys parDict →
      dlookup (par parDict parCheck updates).1 k = dlookup parDict k ∧
      Diag.unknownParameter k ∈ (par parDict parCheck updates).2) ∧
    (∀ k, k ∉ updates.map Prod.fst →
      dlookup (par parDict parCheck updates).1 k = dlookup parDict k) ∧
    (∀ i c, parCheck.get? i = some c → c (par parDict parCheck updates).1 = false →
      Diag.requirementFailed i ∈ (par parDict parCheck updates).2) ∧
    (∀ parCheck' : List (Dict Name Val → Bool),
      (par parDict parCheck' updates).1 = (par parDict parCheck updates).1) := by
  have hF : NodupKeys (updates.filter (fun kv => decide (kv.1 ∈ dkeys parDict))) :=
    nodup_filter_keys hu _
  have hstaged : dupdateMany ([] : Dict Name Val)
      (updates.filter (fun kv => decide (kv.1 ∈ dkeys parDict))) =
      updates.filter (fun kv => decide (kv.1 ∈ dkeys parDict)) :=
    dupdateMany_nil_of_nodup hF
  refine ⟨?_, ?_, ?_, ?_, fun _ => rfl⟩
  · intro k v hmem hk
    rw [par_fst, hstaged]
    exact dlookup_dupdateMany_of_mem hF (List.mem_filter.mpr ⟨hmem, by simp [hk]⟩)
  · intro k v hmem hk
    constructor
    · rw [par_fst, hstaged]
      refine dlookup_dupdateMany_of_not_mem ?_
      intro hmem2
      obtain ⟨w, hw⟩ := mem_dkeys_iff.mp hmem2
      obtain ⟨_, hp⟩ := List.mem_filter.mp hw
      exact hk (by simpa using hp)
    · rw [par_snd]
      refine List.mem_append_left _ ?_
      exact List.mem_map_of_mem _ (List.mem_filter.mpr ⟨hmem, by simp [hk]⟩)
  · intro k hk
    rw [par_fst, hstaged]
    refine dlookup_dupdateMany_of_not_mem ?_
    intro hmem2
    obtain ⟨w, hw⟩ := mem_dkeys_iff.mp hmem2
    obtain ⟨hmem, _⟩ := List.mem_filter.mp hw
    exact hk (List.mem_map_of_mem Prod.fst hmem)
  · intro i c hget hfail
    rw [par_snd]
    refine List.mem_append_right _ ?_
    refine List.mem_map_of_mem _ ?_
    refine List.mem_filter.mpr ⟨List.mem_range.mpr (List.get?_eq_some.mp hget).1, ?_⟩
    rw [hget]
    simp [hfail]

/-- Witness for C6: store `{Y: 0.5}`, a requirement demanding `Y = 0`,
and the update map `{Y: 1, bogus: 1}`. -/
theorem C6_par_validation_fail_open_witness :
    dlookup (par [((("Y").toList), some (1/2))]
        [fun d => decide (dlookup d (("Y").toList) = some (some 0))]
        [((("Y").toList), some 1), ((("bogus").toList), some 1)]).1 (("Y").toList) =
      some (some 1) ∧
    (dlookup (par [((("Y").toList), some (1/2))]
        [fun d => decide (dlookup d (("Y").toList) = some (some 0))]
        [((("Y").toList), some 1), ((("bogus").toList), some 1)]).1 (("bogus").toList) =
      dlookup [((("Y").toList), some (1/2))] (("bogus").toList) ∧
      Diag.unknownParameter (("bogus").toList) ∈
        (par [((("Y").toList), some (1/2))]
          [fun d => decide (dlookup d (("Y").toList) = some (some 0))]
          [((("Y").toList), some 1), ((("bogus").toList), some 1)]).2) ∧
    Diag.requirementFailed 0 ∈
      (par [((("Y").toList), some (1/2))]
        [fun d => decide (dlookup d (("Y").toList) = some (some 0))]
        [((("Y").toList), some 1), ((("bogus").toList), some 1)]).2 := by
  have h := C6_par_validation_fail_open [((("Y").toList), some (1/2))]
    [fun d => decide (dlookup d (("Y").toList) = some (some 0))]
    [((("Y").toList), some 1), ((("bogus").toList), some 1)] (by decide)
  refine ⟨?_, ?_, ?_⟩
  · exact h.1 (("Y").toList) (some 1) (by decide) (by decide)
  · exact h.2.1 (("bogus").toList) (some 1) (by decide) (by decide)
  · refine h.2.2.2.1 0 _ rfl (by decide)

end FmuExplore

namespace FmuExplore

/-- After committing a staged dict with distinct keys, every staged
binding is present in the result. -/
theorem staged_bindings_in_result (parDict : Dict Name Val) (F : Dict Name Val) :
    ∀ kv ∈ dupdateMany ([] : Dict Name Val) F,
      dlookup (dupdateMany parDict (dupdateMany ([] : Dict Name Val) F)) kv.1 = some kv.2 := by
  intro kv hkv
  have hnd : NodupKeys (dupdateMany ([] : Dict Name Val) F) :=
    nodupKeys_dupdateMany F (by simp [NodupKeys])
  exact dlookup_dupdateMany_of_mem hnd hkv

end FmuExplore

namespace FmuExplore

/-- Claim C7: `par` and `init` are idempotent: re-applying the same update
map leaves the Parameter Store contents unchanged. -/
theorem C7_par_init_idempotent :
    (∀ (parDict : Dict Name Val) (parCheck : List (Dict Name Val → Bool))
        (updates : List (Name × Val)),
      (par (par parDict parCheck updates).1 parCheck updates).1 =
        (par parDict parCheck updates).1) ∧
    (∀ (parDict : Dict Name Val) (updates : List (Name × Val)),
      (init (init parDict updates).1 updates).1 = (init parDict updates).1) := by
  constructor
  · intro parDict parCheck u
    have hkeys : dkeys (par parDict parCheck u).1 = dkeys parDict := by
      rw [par_fst]
      refine dkeys_dupdateMany_of_subset ?_
      intro k hk
      obtain ⟨v, hv, hp⟩ := mem_dkeys_staged hk
      simpa using hp
    rw [par_fst (par parDict parCheck u).1 parCheck u]
    simp only [hkeys]
    refine dupdateMany_eq_self ?_
    intro kv hkv
    rw [par_fst]
    exact staged_bindings_in_result parDict _ kv hkv
  · intro parDict u
    rw [init_fst (init parDict u).1 u]
    refine dupdateMany_eq_self ?_
    intro kv hkv
    rw [init_fst]
    exact staged_bindings_in_result parDict _ kv hkv

/-- Claim C10: `init` commits every update whose key contains `_start`,
with no membership check against the known-parameter set (it can create
brand-new store entries, with no location mapping required) and no
requirement evaluation: its diagnostics are exactly the rejections of the
non-`_start` keys. -/
theorem C10_init_creates_unknown_start_entries (parDict : Dict Name Val)
    (updates : List (Name × Val)) (hu : (updates.map Prod.fst).Nodup) :
    (∀ k v, (k, v) ∈ updates → isSubstring (("_start").toList) k = true →
      dlookup (init parDict updates).1 k = some v) ∧
    (∀ k v, (k, v) ∈ updates → isSubstring (("_start").toList) k = true →
      k ∉ dkeys parDict → dlookup (init parDict updates).1 k = some v) ∧
    (∀ k, isSubstring (("_start").toList) k = false →
      dlookup (init parDict updates).1 k = dlookup parDict k) ∧
    (init parDict updates).2 = (updates.filter
      (fun kv => !(isSubstring (("_start").toList) kv.1))).map
      (fun kv => Diag.notAnInitial kv.1) := by
  have hF : NodupKeys (updates.filter (fun kv => isSubstring (("_start").toList) kv.1)) :=
    nodup_filter_keys hu _
  have hstaged := dupdateMany_nil_of_nodup hF
  have hcommit : ∀ k v, (k, v) ∈ updates → isSubstring (("_start").toList) k = true →
      dlookup (init parDict updates).1 k = some v := by
    intro k v hmem hsub
    rw [init_fst, hstaged]
    exact dlookup_dupdateMany_of_mem hF (List.mem_filter.mpr ⟨hmem, hsub⟩)
  refine ⟨hcommit, fun k v hmem hsub _ => hcommit k v hmem hsub, ?_, init_snd parDict updates⟩
  intro k hsub
  rw [init_fst, hstaged]
  refine dlookup_dupdateMany_of_not_mem ?_
  intro hmem
  obtain ⟨w, hw⟩ := mem_dkeys_iff.mp hmem
  obtain ⟨_, hp⟩ := List.mem_filter.mp hw
  rw [hsub] at hp
  exact Bool.false_ne_true hp

/-- Witness for C10: the brand-new key `brandnew_start` (absent from the
store and from any location mapping) is committed; the key `plain` is
skipped. -/
theorem C10_init_creates_unknown_start_entries_witness :
    dlookup (init [((("V_start").toList), some 1)]
        [((("brandnew_start").toList), some 7), ((("plain").toList), some 1)]).1
      (("brandnew_start").toList) = some (some 7) ∧
    dlookup (init [((("V_start").toList), some 1)]
        [((("brandnew_start").toList), some 7), ((("plain").toList), some 1)]).1
      (("plain").toList) = dlookup [((("V_start").toList), some 1)] (("plain").toList) := by
  have h := C10_init_creates_unknown_start_entries [((("V_start").toList), some 1)]
    [((("brandnew_start").toList), some 7), ((("plain").toList), some 1)] (by decide)
  constructor
  · exact h.2.1 (("brandnew_start").toList) (some 7) (by decide) (by decide) (by decide)
  · exact h.2.2.1 (("plain").toList) (by decide)

end FmuExplore

namespace FmuExplore

/-! ## Model catalog and output variable selection -/

inductive Causality where
  | parameter
  | localc
  | calculatedParameter
  | other
  deriving DecidableEq, Repr

inductive Variability where
  | constant
  | continuous
  | other
  deriving DecidableEq, Repr

/-- One entry of `model_description.modelVariables`. `start` keeps only the
numeric case (the accessor coerces it with `float`); `derivative` holds the
name of the differentiated variable when the entry is a derivative. -/
structure ModelVar where
  name : Name
  causality : Causality
  variability : Variability
  start : Option ℚ
  derivative : Option Name
  deriving DecidableEq, Repr

/-- `extract_variables` (lines 482-489): for each diagram command, every
catalog variable of `local` causality whose name occurs textually in the
command is appended. -/
def extract_variables (catalog : List ModelVar) (diagrams : List Name) : List Name :=
  diagrams.flatMap (fun dia =>
    (((catalog.filter (fun v => decide (v.causality = Causality.localc)))).filter
      (fun v => isSubstring v.name dia)).map (fun v => v.name))

/-- The `output` argument built at lines 506 and 542:
`list(set(extract_variables(diagrams) + list(stateDict.keys()) + key_variables))`. -/
def selectOutputs (catalog : List ModelVar) (diagrams : List Name)
    (stateKeys keyVariables : List Name) : List Name :=
  (extract_variables catalog diagrams ++ stateKeys ++ keyVariables).dedup

theorem mem_extract_variables_iff {catalog : List ModelVar} {diagrams : List Name}
    {x : Name} :
    x ∈ extract_variables catalog diagrams ↔
      ∃ v ∈ catalog, v.causality = Causality.localc ∧ v.name = x ∧
        ∃ dia ∈ diagrams, isSubstring v.name dia = true := by
  unfold extract_variables
  rw [List.mem_flatMap]
  constructor
  · rintro ⟨dia, hdia, hx⟩
    rw [List.mem_map] at hx
    obtain ⟨v, hvmem, hname⟩ := hx
    obtain ⟨hv2, hsub⟩ := List.mem_filter.mp hvmem
    obtain ⟨hv, hloc⟩ := List.mem_filter.mp hv2
    exact ⟨v, hv, by simpa using hloc, hname, dia, hdia, hsub⟩
  · rintro ⟨v, hv, hloc, hname, dia, hdia, hsub⟩
    refine ⟨dia, hdia, ?_⟩
    rw [List.mem_map]
    exact ⟨v, List.mem_filter.mpr ⟨List.mem_filter.mpr ⟨hv, by simpa using hloc⟩, hsub⟩, hname⟩

/-- Claim C9: the Output Variable Selector returns a deduplicated set equal
to the union of the local catalog names textually referenced by the diagram
commands, the State Entry keys and the key variables; in particular it is a
superset of the State Entry keys and of the key variables. -/
theorem C9_output_selector (catalog : List ModelVar) (diagrams : List Name)
    (stateKeys keyVariables : List Name) :
    (selectOutputs catalog diagrams stateKeys keyVariables).Nodup ∧
    (∀ x, x ∈ selectOutputs catalog diagrams stateKeys keyVariables ↔
      ((∃ v ∈ catalog, v.causality = Causality.localc ∧ v.name = x ∧
          ∃ dia ∈ diagrams, isSubstring v.name dia = true) ∨
        x ∈ stateKeys ∨ x ∈ keyVariables)) ∧
    (∀ x ∈ stateKeys, x ∈ selectOutputs catalog diagrams stateKeys keyVariables) ∧
    (∀ x ∈ keyVariables, x ∈ selectOutputs catalog diagrams stateKeys keyVariables) := by
  have hmem : ∀ x, x ∈ selectOutputs catalog diagrams stateKeys keyVariables ↔
      ((∃ v ∈ catalog, v.causality = Causality.localc ∧ v.name = x ∧
          ∃ dia ∈ diagrams, isSubstring v.name dia = true) ∨
        x ∈ stateKeys ∨ x ∈ keyVariables) := by
    intro x
    unfold selectOutputs
    rw [List.mem_dedup, List.mem_append, List.mem_append, mem_extract_variables_iff,
      or_assoc]
  refine ⟨List.nodup_dedup _, hmem, ?_, ?_⟩
  · intro x hx
    exact (hmem x).mpr (Or.inr (Or.inl hx))
  · intro x hx
    exact (hmem x).mpr (Or.inr (Or.inr hx))

/-- Witness for C9 on a two-variable catalog, one diagram command, one
state key and one key variable. -/
theorem C9_output_selector_witness :
    (("bioreactor.m[1]").toList) ∈ selectOutputs
      [⟨("bioreactor.culture.mu").toList, Causality.localc, Variability.continuous, none, none⟩]
      [("ax.plot(sim_res['bioreactor.culture.mu'])").toList]
      [("bioreactor.m[1]").toList] [("bioreactor.V").toList] ∧
    (("bioreactor.V").toList) ∈ selectOutputs
      [⟨("bioreactor.culture.mu").toList, Causality.localc, Variability.continuous, none, none⟩]
      [("ax.plot(sim_res['bioreactor.culture.mu'])").toList]
      [("bioreactor.m[1]").toList] [("bioreactor.V").toList] := by
  have h := C9_output_selector
    [⟨("bioreactor.culture.mu").toList, Causality.localc, Variability.continuous, none, none⟩]
    [("ax.plot(sim_res['bioreactor.culture.mu'])").toList]
    [("bioreactor.m[1]").toList] [("bioreactor.V").toList]
  exact ⟨h.2.2.1 (("bioreactor.m[1]").toList) (by decide),
    h.2.2.2 (("bioreactor.V").toList) (by decide)⟩

end FmuExplore

namespace FmuExplore

/-! ## Runtime state and the value accessor (`model_get`, lines 373-399) -/

/-- The table produced by `simulate_fmu`: one sample column per recorded
variable (the `time` column included). -/
structure SimRes where
  cols : Dict Name (List ℚ)
  deriving DecidableEq, Repr

/-- The mutable globals of the script that the core reads and writes:
`parDict`, `stateDict`, `prevFinalTime`, `sim_res`, `start_values`.
`none` in the last two models a global that is not yet bound (accessing it
raises `NameError`). -/
structure St where
  parDict : Dict Name Val
  stateDict : Dict Name Val
  prevFinalTime : ℚ
  sim_res : Option SimRes
  start_values : Option (Dict Name Val)
  deriving DecidableEq, Repr

/-- Python exceptions that can escape the modelled code. -/
inductive PyErr where
  | typeError
  | keyError
  | indexError
  | unboundLocal
  | fmuError
  deriving DecidableEq, Repr

deriving instance DecidableEq for Except

/-- The `try` body of `model_get` for one matching catalog entry.
`NameError` on the unbound globals `sim_res` / `start_values` is caught by
the outer `except NameError` handler, which sets the value to `None`: those
paths return `.ok none` here. -/
def resolveVar (v : ModelVar) (st : St) : Except PyErr Val :=
  if v.causality = Causality.localc ∧ v.variability = Variability.constant then
    match v.start with
    | some x => .ok (some x)
    | none => .error .typeError
  else if v.causality = Causality.parameter then
    match v.start with
    | some x => .ok (some x)
    | none => .error .typeError
  else if v.causality = Causality.calculatedParameter then
    match st.sim_res with
    | none => .ok none
    | some res =>
      match dlookup res.cols v.name with
      | none => .error .keyError
      | some ts =>
        match ts.head? with
        | none => .error .indexError
        | some x => .ok (some x)
  else
    match st.start_values with
    | none => .ok none
    | some sv =>
      if v.name ∈ dkeys sv then .ok ((dlookup sv v.name).getD none)
      else if v.variability = Variability.continuous then
        match st.sim_res with
        | none => .ok none
        | some res =>
          match dlookup res.cols v.name with
          | none => .ok none
          | some ts =>
            match ts.getLast? with
            | none => .error .indexError
            | some x => .ok (some x)
      else .ok none

/-- One step of the `for k in range(len(par_var))` loop of `model_get`:
the running `value` local is `none` while still unassigned. -/
def model_get_step (st : St) (parLoc : Name) (acc : Except PyErr (Option Val))
    (v : ModelVar) : Except PyErr (Option Val) :=
  match acc with
  | .error e => .error e
  | .ok cur =>
      if v.name = parLoc then
        match resolveVar v st with
        | .error e => .error e
        | .ok val => .ok (some val)
      else .ok cur

/-- `model_get` (lines 373-399): scan the whole catalog, resolving every
entry whose name matches; `return value` with `value` never assigned
raises `UnboundLocalError`. -/
def model_get (catalog : List ModelVar) (st : St) (parLoc : Name) : Except PyErr Val :=
  match catalog.foldl (model_get_step st parLoc) (Except.ok none) with
  | .error e => .error e
  | .ok none => .error .unboundLocal
  | .ok (some val) => .ok val

theorem model_get_foldl_error (st : St) (parLoc : Name) (l : List ModelVar) (e : PyErr) :
    l.foldl (model_get_step st parLoc) (.error e) = .error e := by
  induction l with
  | nil => rfl
  | cons v rest ih => rw [List.foldl_cons]; exact ih

theorem model_get_foldl_nomatch (st : St) (parLoc : Name) {l : List ModelVar}
    (h : ∀ v ∈ l, ¬ v.name = parLoc) (acc : Except PyErr (Option Val)) :
    l.foldl (model_get_step st parLoc) acc = acc := by
  induction l generalizing acc with
  | nil => rfl
  | cons v rest ih =>
      rw [List.foldl_cons]
      have hstep : model_get_step st parLoc acc v = acc := by
        match acc with
        | .error e => rfl
        | .ok cur => simp [model_get_step, h v (by simp)]
      rw [hstep]
      exact ih (fun v' hv' => h v' (by simp [hv'])) acc

/-- With pairwise-distinct catalog names, `model_get` on a present name is
decided by `resolveVar` on its (unique) entry. -/
theorem model_get_of_mem {catalog : List ModelVar} (st : St) {v : ModelVar}
    (hnd : (catalog.map ModelVar.name).Nodup) (hv : v ∈ catalog) :
    model_get catalog st v.name =
      match resolveVar v st with
      | .error e => .error e
      | .ok val => .ok val := by
  induction catalog with
  | nil => simp at hv
  | cons w rest ih =>
      rw [List.map_cons, List.nodup_cons] at hnd
      rcases List.mem_cons.mp hv with hh | hh
      · subst hh
        have hrest : ∀ u ∈ rest, ¬ u.name = v.name := by
          intro u hu heq
          exact hnd.1 (heq ▸ List.mem_map_of_mem ModelVar.name hu)
        unfold model_get
        rw [List.foldl_cons]
        have hstep : model_get_step st v.name (.ok none) v =
            match resolveVar v st with
            | .error e => .error e
            | .ok val => .ok (some val) := by
          simp [model_get_step]
        rw [hstep]
        rcases hres : resolveVar v st with e | val
        · rw [model_get_foldl_error]
        · rw [model_get_foldl_nomatch st v.name hrest]
      · have hwname : ¬ w.name = v.name := by
          intro heq
          exact hnd.1 (heq ▸ List.mem_map_of_mem ModelVar.name hh)
        unfold model_get
        rw [List.foldl_cons]
        have hstep : model_get_step st v.name (.ok none) w = .ok none := by
          simp [model_get_step, hwname]
        rw [hstep]
        exact ih hnd.2 hh

end FmuExplore

namespace FmuExplore

/-- Claim C8 (counterexample): the Value Accessor does throw. For a name
absent from the catalog the loop never assigns `value`, and `return value`
raises `UnboundLocalError` instead of returning an "unavailable" result. -/
theorem C8_model_get_throws_counterexample :
    model_get
      [⟨("liquidphase.X").toList, Causality.parameter, Variability.constant, some 1, none⟩]
      ⟨[], [], 0, none, none⟩ (("no.such.variable").toList) = .error .unboundLocal := by
  decide

/-- Claim C8 (amended): for a name carried by a catalog entry resolution
does not throw: a constant local or parameter-causality variable with a
numeric start resolves to its start value in any state (in particular
before any run), and a continuous local variable before any run (neither
`sim_res` nor `start_values` bound) resolves to the explicit `None`
result; but a name matching no catalog entry raises `UnboundLocalError`. -/
theorem C8_model_get_resolution (catalog : List ModelVar) (st : St)
    (hnd : (catalog.map ModelVar.name).Nodup) :
    (∀ v ∈ catalog, ∀ x : ℚ, v.causality = Causality.localc →
      v.variability = Variability.constant → v.start = some x →
      model_get catalog st v.name = .ok (some x)) ∧
    (∀ v ∈ catalog, ∀ x : ℚ, v.causality = Causality.parameter → v.start = some x →
      model_get catalog st v.name = .ok (some x)) ∧
    (∀ v ∈ catalog, v.causality = Causality.localc →
      v.variability = Variability.continuous → st.sim_res = none →
      st.start_values = none → model_get catalog st v.name = .ok none) ∧
    (∀ parLoc : Name, (∀ v ∈ catalog, ¬ v.name = parLoc) →
      model_get catalog st parLoc = .error .unboundLocal) := by
  refine ⟨?_, ?_, ?_, ?_⟩
  · intro v hv x hc hvar hst
    rw [model_get_of_mem st hnd hv]
    simp [resolveVar, hc, hvar, hst]
  · intro v hv x hc hst
    rw [model_get_of_mem st hnd hv]
    simp [resolveVar, hc, hst]
  · intro v hv hc hvar hsim hsv
    rw [model_get_of_mem st hnd hv]
    simp [resolveVar, hc, hvar, hsim, hsv]
  · intro parLoc hnone
    unfold model_get
    rw [model_get_foldl_nomatch st parLoc hnone]

/-- Witness for C8 (amended) on a three-entry catalog in the pre-run
state. -/
theorem C8_model_get_resolution_witness :
    model_get
      [⟨("BPL.version").toList, Causality.localc, Variability.constant, some 3, none⟩,
       ⟨("liquidphase.X").toList, Causality.parameter, Variability.constant, some 1, none⟩,
       ⟨("bioreactor.m[1]").toList, Causality.localc, Variability.continuous, some 2, none⟩]
      ⟨[], [], 0, none, none⟩ (("BPL.version").toList) = .ok (some 3) ∧
    model_get
      [⟨("BPL.version").toList, Causality.localc, Variability.constant, some 3, none⟩,
       ⟨("liquidphase.X").toList, Causality.parameter, Variability.constant, some 1, none⟩,
       ⟨("bioreactor.m[1]").toList, Causality.localc, Variability.continuous, some 2, none⟩]
      ⟨[], [], 0, none, none⟩ (("liquidphase.X").toList) = .ok (some 1) ∧
    model_get
      [⟨("BPL.version").toList, Causality.localc, Variability.constant, some 3, none⟩,
       ⟨("liquidphase.X").toList, Causality.parameter, Variability.constant, some 1, none⟩,
       ⟨("bioreactor.m[1]").toList, Causality.localc, Variability.continuous, some 2, none⟩]
      ⟨[], [], 0, none, none⟩ (("bioreactor.m[1]").toList) = .ok none := by
  have h := C8_model_get_resolution
    [⟨("BPL.version").toList, Causality.localc, Variability.constant, some 3, none⟩,
     ⟨("liquidphase.X").toList, Causality.parameter, Variability.constant, some 1, none⟩,
     ⟨("bioreactor.m[1]").toList, Causality.localc, Variability.continuous, some 2, none⟩]
    ⟨[], [], 0, none, none⟩ (by decide)
  refine ⟨?_, ?_, ?_⟩
  · exact h.1 ⟨("BPL.version").toList, Causality.localc, Variability.constant, some 3, none⟩
      (by simp) 3 rfl rfl rfl
  · exact h.2.1 ⟨("liquidphase.X").toList, Causality.parameter, Variability.constant, some 1, none⟩
      (by simp) 1 rfl rfl
  · exact h.2.2.1 ⟨("bioreactor.m[1]").toList, Causality.localc, Variability.continuous, some 2, none⟩
      (by simp) rfl rfl rfl rfl

end FmuExplore

namespace FmuExplore

/-! ## The simulation driver (`simu`, lines 472-563)

Diagram rendering (`linetype = next(linecycler); for command in diagrams:
eval(command)`) is visual-side-effect plotting, outside the core per the
spec, and is not modelled. The `simulate_fmu` collaborator is a parameter
`fmu`; a raised exception from it propagates out of `simu` uncaught, which
the result type records as `.raised`. -/

/-- The argument record of one `simulate_fmu` invocation. -/
structure FmuCall where
  start_time : ℚ
  stop_time : ℚ
  output_interval : ℚ
  start_values : Dict Name Val
  output : List Name
  deriving DecidableEq, Repr

/-- Outcome of a `simu` call: a completed run (with the invocation made),
the `'Error: No simulation done'` usage-error path (no invocation, state
untouched), or a Python exception escaping to the caller. -/
inductive SimuRes where
  | done (call : FmuCall) (st : St)
  | noSim (st : St)
  | raised (call : Option FmuCall) (st : St) (e : PyErr)
  deriving DecidableEq, Repr

/-- The immutable startup data `simu` consults: the model catalog and the
global dicts built at lines 128-190. -/
structure Ctx where
  catalog : List ModelVar
  parLocation : Dict Name Name
  stateDictInitial : Dict Name Name
  key_variables : List Name
  deriving DecidableEq, Repr

def freshModeNames : List Name :=
  [("Initial").toList, ("initial").toList, ("init").toList]

def contModeNames : List Name :=
  [("Continued").toList, ("continued").toList, ("cont").toList]

/-- A dict comprehension `{locMap[k]: v for (k, v) in pairs}`; `KeyError`
when a key has no location. -/
def svFold (locMap : Dict Name Name) :
    List (Name × Val) → Dict Name Val → Except PyErr (Dict Name Val)
  | [], acc => .ok acc
  | (k, v) :: rest, acc =>
      match dlookup locMap k with
      | none => .error .keyError
      | some loc => svFold locMap rest (dupdate acc loc v)

/-- Lines 518-523: copy `parDict` and `parLocation`, then delete every key
whose location coincides with a derived initial-value location. -/
def reduceAux (parLocation sdi : Dict Name Name) :
    List (Name × Val) → Dict Name Val → Dict Name Name →
      Except PyErr (Dict Name Val × Dict Name Name)
  | [], dRed, locRed => .ok (dRed, locRed)
  | (k, _) :: rest, dRed, locRed =>
      match dlookup parLocation k with
      | none => .error .keyError
      | some loc =>
          if loc ∈ dvalues sdi then
            reduceAux parLocation sdi rest (ddelete dRed k) (ddelete locRed k)
          else reduceAux parLocation sdi rest dRed locRed

/-- Line 528: `[(stateDictInitial[key], stateDict[key]) for key in
stateDict.keys()]`. -/
def initPairsOf (sdi : Dict Name Name) :
    List (Name × Val) → Except PyErr (List (Name × Val))
  | [] => .ok []
  | (key, sval) :: rest =>
      match dlookup sdi key with
      | none => .error .keyError
      | some n =>
          match initPairsOf sdi rest with
          | .error e => .error e
          | .ok l => .ok ((n, sval) :: l)

/-- Line 557: `for key in stateDict.keys(): stateDict[key] = model_get(key)`.
An exception stops the loop leaving the keys updated so far. -/
def updateStates (catalog : List ModelVar) (st : St) :
    List (Name × Val) → Dict Name Val → Dict Name Val × Option PyErr
  | [], acc => (acc, none)
  | (key, _) :: rest, acc =>
      match model_get catalog st key with
      | .error e => (acc, some e)
      | .ok v => updateStates catalog st rest (dupdate acc key v)

/-- Lines 550-560: the post-run block shared by both modes: bind `sim_res`,
feed the final values back into `stateDict`, advance `prevFinalTime` to
the result's last timestamp. -/
def postRun (ctx : Ctx) (call : FmuCall) (st1 : St) (res : SimRes) : SimuRes :=
  match updateStates ctx.catalog {st1 with sim_res := some res}
      st1.stateDict st1.stateDict with
  | (sd, some e) =>
      .raised (some call) {st1 with sim_res := some res, stateDict := sd} e
  | (sd, none) =>
      match dlookup res.cols (("time").toList) with
      | none =>
          .raised (some call) {st1 with sim_res := some res, stateDict := sd} .keyError
      | some ts =>
          match ts.getLast? with
          | none =>
              .raised (some call) {st1 with sim_res := some res, stateDict := sd} .indexError
          | some t =>
              .done call {st1 with sim_res := some res, stateDict := sd, prevFinalTime := t}

/-- `simu` (lines 472-563). -/
def simu (ctx : Ctx) (fmu : FmuCall → Except Unit SimRes) (diagrams : List Name)
    (st : St) (simulationTime : ℚ) (mode : Name) (ncp : ℚ) : SimuRes :=
  if mode ∈ freshModeNames then
    match svFold ctx.parLocation st.parDict [] with
    | .error e => .raised none st e
    | .ok sv =>
        match fmu ⟨0, simulationTime, simulationTime / ncp, sv,
            selectOutputs ctx.catalog diagrams (dkeys st.stateDict) ctx.key_variables⟩ with
        | .error _ =>
            .raised (some ⟨0, simulationTime, simulationTime / ncp, sv,
                selectOutputs ctx.catalog diagrams (dkeys st.stateDict) ctx.key_variables⟩)
              {st with start_values := some sv} .fmuError
        | .ok res =>
            postRun ctx
              ⟨0, simulationTime, simulationTime / ncp, sv,
                selectOutputs ctx.catalog diagrams (dkeys st.stateDict) ctx.key_variables⟩
              {st with start_values := some sv} res
  else if mode ∈ contModeNames then
    if st.prevFinalTime = 0 then .noSim st
    else
      match reduceAux ctx.parLocation ctx.stateDictInitial st.parDict st.parDict
          ctx.parLocation with
      | .error e => .raised none st e
      | .ok (parDictRed, parLocationRed) =>
          match initPairsOf ctx.stateDictInitial st.stateDict with
          | .error e => .raised none st e
          | .ok ip =>
              match svFold
                  (dupdateMany parLocationRed (stateDictInitialLocOf ctx.stateDictInitial))
                  (dupdateMany parDictRed ip) [] with
              | .error e => .raised none st e
              | .ok sv =>
                  match fmu ⟨st.prevFinalTime, st.prevFinalTime + simulationTime,
                      simulationTime / ncp, sv,
                      selectOutputs ctx.catalog diagrams (dkeys st.stateDict)
                        ctx.key_variables⟩ with
                  | .error _ =>
                      .raised (some ⟨st.prevFinalTime, st.prevFinalTime + simulationTime,
                          simulationTime / ncp, sv,
                          selectOutputs ctx.catalog diagrams (dkeys st.stateDict)
                            ctx.key_variables⟩)
                        {st with start_values := some sv} .fmuError
                  | .ok res =>
                      postRun ctx
                        ⟨st.prevFinalTime, st.prevFinalTime + simulationTime,
                          simulationTime / ncp, sv,
                          selectOutputs ctx.catalog diagrams (dkeys st.stateDict)
                            ctx.key_variables⟩
                        {st with start_values := some sv} res
  else .noSim st

end FmuExplore

namespace FmuExplore

theorem cont_not_fresh {mode : Name} (h : mode ∈ contModeNames) :
    mode ∉ freshModeNames := by
  fin_cases h <;> decide

/-- Claim C4: a usage error — continuation mode with a zero cursor, or an
unrecognized mode string — performs no model invocation and returns with
the state (cursor and State Entries included) exactly as it was, reporting
only the diagnostic. -/
theorem C4_usage_error_no_side_effects (ctx : Ctx) (fmu : FmuCall → Except Unit SimRes)
    (diagrams : List Name) (st : St) (simulationTime : ℚ) (mode : Name) (ncp : ℚ)
    (h : (mode ∈ contModeNames ∧ st.prevFinalTime = 0) ∨
      (mode ∉ freshModeNames ∧ mode ∉ contModeNames)) :
    simu ctx fmu diagrams st simulationTime mode ncp = .noSim st := by
  rcases h with ⟨hm, hz⟩ | ⟨h1, h2⟩
  · unfold simu
    rw [if_neg (cont_not_fresh hm), if_pos hm, if_pos hz]
  · unfold simu
    rw [if_neg h1, if_neg h2]

/-- Witness for C4: continuation before any fresh run, and a misspelled
mode, both leave the state untouched and invoke nothing. -/
theorem C4_usage_error_no_side_effects_witness :
    simu ⟨[], [], [], []⟩ (fun _ => .error ()) [] ⟨[], [], 0, none, none⟩ 5
        (("cont").toList) 500 = .noSim ⟨[], [], 0, none, none⟩ ∧
    simu ⟨[], [], [], []⟩ (fun _ => .error ()) [] ⟨[], [], 7, none, none⟩ 5
        (("bogus").toList) 500 = .noSim ⟨[], [], 7, none, none⟩ := by
  constructor
  · exact C4_usage_error_no_side_effects ⟨[], [], [], []⟩ (fun _ => .error ()) []
      ⟨[], [], 0, none, none⟩ 5 (("cont").toList) 500 (Or.inl ⟨by decide, rfl⟩)
  · exact C4_usage_error_no_side_effects ⟨[], [], [], []⟩ (fun _ => .error ()) []
      ⟨[], [], 7, none, none⟩ 5 (("bogus").toList) 500 (Or.inr ⟨by decide, by decide⟩)

end FmuExplore

namespace FmuExplore

theorem resolveVar_ne_fmuError (v : ModelVar) (st : St) :
    resolveVar v st ≠ .error .fmuError := by
  unfold resolveVar
  repeat' split
  all_goals simp

theorem model_get_foldl_ne_fmuError (st : St) (parLoc : Name) (l : List ModelVar)
    (acc : Except PyErr (Option Val)) (hacc : acc ≠ .error .fmuError) :
    l.foldl (model_get_step st parLoc) acc ≠ .error .fmuError := by
  induction l generalizing acc with
  | nil => exact hacc
  | cons v rest ih =>
      rw [List.foldl_cons]
      refine ih _ ?_
      rcases acc with e | cur
      · exact hacc
      · have hred : model_get_step st parLoc (.ok cur) v =
            if v.name = parLoc then
              (match resolveVar v st with
                | .error e => .error e
                | .ok val => .ok (some val))
            else .ok cur := rfl
        rw [hred]
        by_cases hname : v.name = parLoc
        · rw [if_pos hname]
          rcases hres : resolveVar v st with e | val
          · intro hh
            injection hh with hh2
            exact resolveVar_ne_fmuError v st (by rw [hres, hh2])
          · simp
        · rw [if_neg hname]
          exact hacc

theorem model_get_ne_fmuError (catalog : List ModelVar) (st : St) (parLoc : Name) :
    model_get catalog st parLoc ≠ .error .fmuError := by
  unfold model_get
  rcases hfold : catalog.foldl (model_get_step st parLoc) (Except.ok none) with e | val
  · intro hh
    injection hh with hh2
    exact model_get_foldl_ne_fmuError st parLoc catalog (.ok none) (by simp)
      (by rw [hfold, hh2])
  · rcases val with _ | v <;> simp

theorem updateStates_ne_fmuError (catalog : List ModelVar) (st : St)
    (l : List (Name × Val)) (acc : Dict Name Val) {sd : Dict Name Val} {e : PyErr}
    (h : updateStates catalog st l acc = (sd, some e)) : e ≠ .fmuError := by
  induction l generalizing acc with
  | nil =>
      rw [updateStates] at h
      injection h with _ h2
      simp at h2
  | cons kv rest ih =>
      obtain ⟨key, sval⟩ := kv
      rw [updateStates] at h
      rcases hmg : model_get catalog st key with e0 | v
      · rw [hmg] at h
        injection h with _ h2
        injection h2 with h3
        subst h3
        exact fun hh => model_get_ne_fmuError catalog st key (by rw [hmg, hh])
      · rw [hmg] at h
        exact ih _ h

theorem postRun_raised_ne_fmuError {ctx : Ctx} {call : FmuCall} {st1 : St}
    {res : SimRes} {c' : Option FmuCall} {st' : St} {e : PyErr}
    (h : postRun ctx call st1 res = .raised c' st' e) : e ≠ .fmuError := by
  unfold postRun at h
  split at h
  · rename_i sd e0 hup
    injection h with h1 h2 h3
    subst h3
    exact updateStates_ne_fmuError ctx.catalog _ _ _ hup
  · rename_i sd hup
    split at h
    · injection h with h1 h2 h3
      subst h3
      decide
    · split at h
      · injection h with h1 h2 h3
        subst h3
        decide
      · exact absurd h (by simp)

end FmuExplore

namespace FmuExplore

/-- Claim C5: when the external model invocation is what failed (the
exception reaching the caller is the model-invocation failure), no partial
state feedback has happened: `stateDict`, the continuation cursor
`prevFinalTime`, `sim_res` and `parDict` are exactly the pre-run values,
and the failure reaches the caller as a raised error. -/
theorem C5_model_failure_preserves_state (ctx : Ctx) (fmu : FmuCall → Except Unit SimRes)
    (diagrams : List Name) (st : St) (simulationTime : ℚ) (mode : Name) (ncp : ℚ)
    (call : Option FmuCall) (st' : St)
    (h : simu ctx fmu diagrams st simulationTime mode ncp =
      .raised call st' PyErr.fmuError) :
    st'.stateDict = st.stateDict ∧ st'.prevFinalTime = st.prevFinalTime ∧
      st'.sim_res = st.sim_res ∧ st'.parDict = st.parDict := by
  unfold simu at h
  split at h
  · split at h
    · injection h with h1 h2 h3
      subst h2
      exact ⟨rfl, rfl, rfl, rfl⟩
    · split at h
      · injection h with h1 h2 h3
        subst h2
        exact ⟨rfl, rfl, rfl, rfl⟩
      · exact absurd rfl (postRun_raised_ne_fmuError h)
  · split at h
    · split at h
      · exact absurd h (by simp)
      · split at h
        · injection h with h1 h2 h3
          subst h2
          exact ⟨rfl, rfl, rfl, rfl⟩
        · split at h
          · injection h with h1 h2 h3
            subst h2
            exact ⟨rfl, rfl, rfl, rfl⟩
          · split at h
            · injection h with h1 h2 h3
              subst h2
              exact ⟨rfl, rfl, rfl, rfl⟩
            · split at h
              · injection h with h1 h2 h3
                subst h2
                exact ⟨rfl, rfl, rfl, rfl⟩
              · exact absurd rfl (postRun_raised_ne_fmuError h)
    · exact absurd h (by simp)

/-- Witness for C5: a model collaborator that always fails, called in fresh
mode from a small configured state. -/
theorem C5_model_failure_preserves_state_witness :
    simu ⟨[], [((("Y").toList), ("bioreactor.culture.Y").toList)], [], []⟩
        (fun _ => .error ()) [] ⟨[((("Y").toList), some (1/2))], [], 0, none, none⟩ 5
        (("init").toList) 500 =
      .raised (some ⟨0, 5, 5 / 500, [((("bioreactor.culture.Y").toList), some (1/2))], []⟩)
        ⟨[((("Y").toList), some (1/2))], [], 0, none,
          some [((("bioreactor.culture.Y").toList), some (1/2))]⟩ PyErr.fmuError ∧
    (⟨[((("Y").toList), some (1/2))], [], 0, none,
        some [((("bioreactor.culture.Y").toList), some (1/2))]⟩ : St).stateDict =
      (⟨[((("Y").toList), some (1/2))], [], 0, none, none⟩ : St).stateDict ∧
    (⟨[((("Y").toList), some (1/2))], [], 0, none,
        some [((("bioreactor.culture.Y").toList), some (1/2))]⟩ : St).prevFinalTime =
      (⟨[((("Y").toList), some (1/2))], [], 0, none, none⟩ : St).prevFinalTime := by
  have hsim : simu ⟨[], [((("Y").toList), ("bioreactor.culture.Y").toList)], [], []⟩
      (fun _ => .error ()) [] ⟨[((("Y").toList), some (1/2))], [], 0, none, none⟩ 5
      (("init").toList) 500 =
      .raised (some ⟨0, 5, 5 / 500, [((("bioreactor.culture.Y").toList), some (1/2))], []⟩)
        ⟨[((("Y").toList), some (1/2))], [], 0, none,
          some [((("bioreactor.culture.Y").toList), some (1/2))]⟩ PyErr.fmuError := by
    rfl
  have h := C5_model_failure_preserves_state
    ⟨[], [((("Y").toList), ("bioreactor.culture.Y").toList)], [], []⟩
    (fun _ => .error ()) [] ⟨[((("Y").toList), some (1/2))], [], 0, none, none⟩ 5
    (("init").toList) 500
    (some ⟨0, 5, 5 / 500, [((("bioreactor.culture.Y").toList), some (1/2))], []⟩)
    ⟨[((("Y").toList), some (1/2))], [], 0, none,
      some [((("bioreactor.culture.Y").toList), some (1/2))]⟩ hsim
  exact ⟨hsim, h.1, h.2.1⟩

end FmuExplore

namespace FmuExplore

/-! ## Characterizations of the continuation-mode construction -/

/-- Totalized dict lookup (used only under totality hypotheses). -/
def locName (m : Dict Name Name) (k : Name) : Name := (dlookup m k).getD []

theorem locName_eq_of_lookup {m : Dict Name Name} {k loc : Name}
    (h : dlookup m k = some loc) : locName m k = loc := by
  rw [locName, h]
  rfl

theorem dlookup_of_mem_nodup {K V : Type} [DecidableEq K] {d : Dict K V}
    (hnd : NodupKeys d) {kv : K × V} (h : kv ∈ d) : dlookup d kv.1 = some kv.2 := by
  induction d with
  | nil => simp at h
  | cons hd rest ih =>
      obtain ⟨hk, hndr⟩ := nodupKeys_cons_iff.mp hnd
      rcases List.mem_cons.mp h with hh | hh
      · subst hh
        obtain ⟨k0, v0⟩ := kv
        simp [dlookup]
      · obtain ⟨k0, v0⟩ := hd
        have hkey : kv.1 ∈ dkeys rest := List.mem_map_of_mem Prod.fst hh
        have hne : k0 ≠ kv.1 := by
          intro heq
          apply hk
          rw [heq]
          exact hkey
        rw [dlookup_cons, if_neg hne]
        exact ih hndr hh

theorem idFold_lookup (vs : List Name) (acc : Dict Name Name) (n : Name) :
    dlookup (vs.foldl (fun a v => dupdate a v v) acc) n =
      if n ∈ vs then some n else dlookup acc n := by
  induction vs generalizing acc with
  | nil => simp
  | cons v rest ih =>
      rw [List.foldl_cons, ih]
      by_cases hn : n ∈ rest
      · simp [hn]
      · by_cases hv : n = v
        · subst hv
          simp [hn]
        · rw [if_neg hn, dlookup_dupdate_ne _ _ (fun hh => hv hh.symm)]
          have hnot : ¬ n ∈ v :: rest := by
            intro hh
            rcases List.mem_cons.mp hh with hh | hh
            · exact hv hh
            · exact hn hh
          rw [if_neg hnot]

theorem idFold_nodupKeys (vs : List Name) (acc : Dict Name Name) (h : NodupKeys acc) :
    NodupKeys (vs.foldl (fun a v => dupdate a v v) acc) := by
  induction vs generalizing acc with
  | nil => exact h
  | cons v rest ih => exact ih _ (nodupKeys_dupdate v v h)

theorem idFold_keys_subset (vs : List Name) (acc : Dict Name Name) (k : Name)
    (h : k ∈ dkeys (vs.foldl (fun a v => dupdate a v v) acc)) :
    k ∈ dkeys acc ∨ k ∈ vs := by
  induction vs generalizing acc with
  | nil => exact Or.inl h
  | cons v rest ih =>
      rw [List.foldl_cons] at h
      rcases ih _ h with hh | hh
      · rcases mem_dkeys_dupdate hh with h3 | h3
        · exact Or.inl h3
        · exact Or.inr (by simp [h3])
      · exact Or.inr (by simp [hh])

theorem stateDictInitialLocOf_lookup (sdi : Dict Name Name) (n : Name) :
    dlookup (stateDictInitialLocOf sdi) n =
      if n ∈ dvalues sdi then some n else none := by
  unfold stateDictInitialLocOf
  rw [idFold_lookup]
  simp

theorem stateDictInitialLocOf_nodupKeys (sdi : Dict Name Name) :
    NodupKeys (stateDictInitialLocOf sdi) :=
  idFold_nodupKeys _ _ (by simp [NodupKeys])

theorem stateDictInitialLocOf_keys_subset (sdi : Dict Name Name) (k : Name)
    (h : k ∈ dkeys (stateDictInitialLocOf sdi)) : k ∈ dvalues sdi := by
  rcases idFold_keys_subset _ _ _ h with hh | hh
  · simp at hh
  · exact hh

theorem svFold_characterization (locMap : Dict Name Name) (pairs : List (Name × Val))
    (acc : Dict Name Val) (h : ∀ kv ∈ pairs, (dlookup locMap kv.1).isSome) :
    svFold locMap pairs acc =
      .ok (dupdateMany acc (pairs.map (fun kv => (locName locMap kv.1, kv.2)))) := by
  induction pairs generalizing acc with
  | nil => rfl
  | cons kv rest ih =>
      obtain ⟨k, v⟩ := kv
      have hk := h (k, v) (by simp)
      rcases hlook : dlookup locMap k with _ | loc
      · rw [hlook] at hk
        simp at hk
      · have hstep : svFold locMap ((k, v) :: rest) acc =
            svFold locMap rest (dupdate acc loc v) := by
          rw [svFold, hlook]
        rw [hstep, ih _ (fun kv' h' => h kv' (by simp [h']))]
        rw [List.map_cons, locName_eq_of_lookup hlook]
        rfl

theorem initPairsOf_characterization (sdi : Dict Name Name) (sd : List (Name × Val))
    (h : ∀ kv ∈ sd, (dlookup sdi kv.1).isSome) :
    initPairsOf sdi sd = .ok (sd.map (fun kv => (locName sdi kv.1, kv.2))) := by
  induction sd with
  | nil => rfl
  | cons kv rest ih =>
      obtain ⟨k, v⟩ := kv
      have hk := h (k, v) (by simp)
      rcases hlook : dlookup sdi k with _ | n
      · rw [hlook] at hk
        simp at hk
      · have hstep : initPairsOf sdi ((k, v) :: rest) =
            match initPairsOf sdi rest with
            | .error e => .error e
            | .ok l => .ok ((n, v) :: l) := by
          rw [initPairsOf, hlook]
        rw [hstep, ih (fun kv' h' => h kv' (by simp [h']))]
        rw [List.map_cons, locName_eq_of_lookup hlook]

end FmuExplore

namespace FmuExplore

theorem reduceAux_characterization (parLocation sdi : Dict Name Name)
    (l : List (Name × Val)) (dRed : Dict Name Val) (locRed : Dict Name Name)
    (h : ∀ kv ∈ l, (dlookup parLocation kv.1).isSome) :
    reduceAux parLocation sdi l dRed locRed =
      .ok (dRed.filter (fun kv => !(decide (kv.1 ∈ l.map Prod.fst) &&
            decide (locName parLocation kv.1 ∈ dvalues sdi))),
        locRed.filter (fun kv => !(decide (kv.1 ∈ l.map Prod.fst) &&
            decide (locName parLocation kv.1 ∈ dvalues sdi)))) := by
  induction l generalizing dRed locRed with
  | nil => simp [reduceAux]
  | cons kv rest ih =>
      obtain ⟨k, v⟩ := kv
      have hk := h (k, v) (by simp)
      rcases hlook : dlookup parLocation k with _ | loc
      · rw [hlook] at hk
        simp at hk
      · have hloceq : locName parLocation k = loc := locName_eq_of_lookup hlook
        by_cases hc : loc ∈ dvalues sdi
        · have hstep : reduceAux parLocation sdi ((k, v) :: rest) dRed locRed =
              reduceAux parLocation sdi rest (ddelete dRed k) (ddelete locRed k) := by
            rw [reduceAux, hlook]
            simp [hc]
          rw [hstep, ih _ _ (fun kv' h' => h kv' (by simp [h']))]
          have hcomb : ∀ (V2 : Type) (dd : List (Name × V2)),
              (ddelete dd k).filter (fun kv => !(decide (kv.1 ∈ rest.map Prod.fst) &&
                decide (locName parLocation kv.1 ∈ dvalues sdi))) =
              dd.filter (fun kv => !(decide (kv.1 ∈ ((k, v) :: rest).map Prod.fst) &&
                decide (locName parLocation kv.1 ∈ dvalues sdi))) := by
            intro V2 dd
            rw [ddelete, List.filter_filter]
            refine congrArg (fun p => List.filter p dd) (funext ?_)
            intro x
            by_cases hx : x.1 = k
            · simp [hx, hloceq, hc]
            · simp [hx, beq_eq_false_iff_ne.mpr hx]
          rw [hcomb Val dRed, hcomb Name locRed]
        · have hstep : reduceAux parLocation sdi ((k, v) :: rest) dRed locRed =
              reduceAux parLocation sdi rest dRed locRed := by
            rw [reduceAux, hlook]
            simp [hc]
          rw [hstep, ih _ _ (fun kv' h' => h kv' (by simp [h']))]
          have hsame : ∀ (V2 : Type) (dd : List (Name × V2)),
              dd.filter (fun kv => !(decide (kv.1 ∈ rest.map Prod.fst) &&
                decide (locName parLocation kv.1 ∈ dvalues sdi))) =
              dd.filter (fun kv => !(decide (kv.1 ∈ ((k, v) :: rest).map Prod.fst) &&
                decide (locName parLocation kv.1 ∈ dvalues sdi))) := by
            intro V2 dd
            refine congrArg (fun p => List.filter p dd) (funext ?_)
            intro x
            by_cases hx : x.1 = k
            · simp [hx, hloceq, hc]
            · simp [hx, beq_eq_false_iff_ne.mpr hx]
          rw [hsame Val dRed, hsame Name locRed]

end FmuExplore

namespace FmuExplore

theorem updateStates_keys (catalog : List ModelVar) (st : St) (l : List (Name × Val))
    (acc : Dict Name Val) (h : ∀ kv ∈ l, kv.1 ∈ dkeys acc) :
    dkeys (updateStates catalog st l acc).1 = dkeys acc := by
  induction l generalizing acc with
  | nil => rfl
  | cons kv rest ih =>
      obtain ⟨key, sval⟩ := kv
      rw [updateStates]
      rcases model_get catalog st key with e | v
      · rfl
      · have hkey : key ∈ dkeys acc := h (key, sval) (by simp)
        rw [ih _ ?_, dkeys_dupdate_of_mem v hkey]
        intro kv' h'
        rw [dkeys_dupdate_of_mem v hkey]
        exact h kv' (by simp [h'])

theorem postRun_done {ctx : Ctx} {call : FmuCall} {st1 : St} {res : SimRes}
    {c' : FmuCall} {st' : St} (h : postRun ctx call st1 res = .done c' st') :
    c' = call ∧ st'.parDict = st1.parDict ∧
      (dlookup res.cols (("time").toList)).bind List.getLast? = some st'.prevFinalTime ∧
      dkeys st'.stateDict = dkeys st1.stateDict ∧
      st'.sim_res = some res ∧ st'.start_values = st1.start_values := by
  unfold postRun at h
  split at h
  · exact absurd h (by simp)
  · rename_i sd hup
    split at h
    · exact absurd h (by simp)
    · rename_i ts htime
      split at h
      · exact absurd h (by simp)
      · rename_i t hlast
        injection h with h1 h2
        subst h1
        subst h2
        refine ⟨rfl, rfl, ?_, ?_, rfl, rfl⟩
        · rw [htime]
          simp [hlast]
        · show dkeys sd = dkeys st1.stateDict
          have := updateStates_keys ctx.catalog {st1 with sim_res := some res}
            st1.stateDict st1.stateDict
            (fun kv h' => List.mem_map_of_mem Prod.fst h')
          rw [hup] at this
          exact this

/-- A completed `simu` run never touches `parDict` and only updates the
values of the existing `stateDict` entries. -/
theorem simu_done_preserves {ctx : Ctx} {fmu : FmuCall → Except Unit SimRes}
    {diagrams : List Name} {st : St} {simulationTime : ℚ} {mode : Name} {ncp : ℚ}
    {call : FmuCall} {st' : St}
    (h : simu ctx fmu diagrams st simulationTime mode ncp = .done call st') :
    st'.parDict = st.parDict ∧ dkeys st'.stateDict = dkeys st.stateDict := by
  unfold simu at h
  split at h
  · split at h
    · exact absurd h (by simp)
    · split at h
      · exact absurd h (by simp)
      · obtain ⟨_, h2, _, h4, _, _⟩ := postRun_done h
        exact ⟨h2, h4⟩
  · split at h
    · split at h
      · exact absurd h (by simp)
      · split at h
        · exact absurd h (by simp)
        · split at h
          · exact absurd h (by simp)
          · split at h
            · exact absurd h (by simp)
            · split at h
              · exact absurd h (by simp)
              · obtain ⟨_, h2, _, h4, _, _⟩ := postRun_done h
                exact ⟨h2, h4⟩
    · exact absurd h (by simp)

end FmuExplore

namespace FmuExplore

/-- Modelled from the spec (§4.5, continuation mode): start from the
reduced Parameter Store — every parameter whose location coincides with a
known (derived) initial-value location removed — mapped to its locations,
combined with the current State Entry values mapped through the derived
initial-value locations. Stated as a dict union, to be compared with the
override set the code builds. -/
def specContinuationOverrides (parLocation sdi : Dict Name Name)
    (parDict stateDict : Dict Name Val) : Dict Name Val :=
  dupdateMany
    (dupdateMany []
      ((parDict.filter (fun kv =>
        !(decide (locName parLocation kv.1 ∈ dvalues sdi)))).map
        (fun kv => (locName parLocation kv.1, kv.2))))
    (stateDict.map (fun kv => (locName sdi kv.1, kv.2)))

theorem stateMapped_nodupKeys {SDI : Dict Name Name} {SD : Dict Name Val}
    (hSDnd : NodupKeys SD)
    (hSDItot : ∀ k ∈ dkeys SD, (dlookup SDI k).isSome)
    (hSDIv : (dvalues SDI).Nodup) :
    NodupKeys (SD.map (fun kv => (locName SDI kv.1, kv.2))) := by
  show (dkeys (SD.map (fun kv => (locName SDI kv.1, kv.2)))).Nodup
  have hkeys : dkeys (SD.map (fun kv => (locName SDI kv.1, kv.2))) =
      SD.map (fun kv => locName SDI kv.1) := by
    rw [dkeys, List.map_map]
    rfl
  rw [hkeys]
  refine List.Nodup.map_on ?_ (List.Nodup.of_map Prod.fst hSDnd)
  intro x hx y hy hf
  obtain ⟨nx, hnx⟩ := Option.isSome_iff_exists.mp
    (hSDItot x.1 (List.mem_map_of_mem Prod.fst hx))
  obtain ⟨ny, hny⟩ := Option.isSome_iff_exists.mp
    (hSDItot y.1 (List.mem_map_of_mem Prod.fst hy))
  rw [locName_eq_of_lookup hnx, locName_eq_of_lookup hny] at hf
  subst hf
  have hk : x.1 = y.1 := dlookup_inj_of_nodup_values hSDIv hnx hny
  have hvx := dlookup_of_mem_nodup hSDnd hx
  have hvy := dlookup_of_mem_nodup hSDnd hy
  rw [hk] at hvx
  rw [hvx] at hvy
  injection hvy with hv
  exact Prod.ext hk hv

theorem stateMapped_keys_mem_values {SDI : Dict Name Name} {SD : Dict Name Val}
    (hSDItot : ∀ k ∈ dkeys SD, (dlookup SDI k).isSome) :
    ∀ k ∈ dkeys (SD.map (fun kv => (locName SDI kv.1, kv.2))), k ∈ dvalues SDI := by
  intro k hk
  rw [mem_dkeys_iff] at hk
  obtain ⟨v, hv⟩ := hk
  rw [List.mem_map] at hv
  obtain ⟨kv, hkv, heq⟩ := hv
  obtain ⟨n, hn⟩ := Option.isSome_iff_exists.mp
    (hSDItot kv.1 (List.mem_map_of_mem Prod.fst hkv))
  have hkeq : k = n := by
    have := congrArg Prod.fst heq
    simp at this
    rw [← this, locName_eq_of_lookup hn]
  rw [hkeq]
  exact List.mem_map_of_mem Prod.snd (mem_of_dlookup_eq_some hn)

end FmuExplore

namespace FmuExplore

theorem cont_start_values {L SDI : Dict Name Name} {P SD : Dict Name Val}
    (hP : NodupKeys P)
    (hLtot : ∀ kv ∈ P, (dlookup L kv.1).isSome)
    (hSDnd : NodupKeys SD)
    (hSDItot : ∀ k ∈ dkeys SD, (dlookup SDI k).isSome)
    (hSDIv : (dvalues SDI).Nodup)
    (hdisj : ∀ kv ∈ P, kv.1 ∉ dvalues SDI)
    (hlocnd : (P.map (fun kv => locName L kv.1)).Nodup) :
    reduceAux L SDI P P L =
      .ok (P.filter (fun kv => !(decide (kv.1 ∈ P.map Prod.fst) &&
            decide (locName L kv.1 ∈ dvalues SDI))),
        L.filter (fun kv => !(decide (kv.1 ∈ P.map Prod.fst) &&
            decide (locName L kv.1 ∈ dvalues SDI)))) ∧
    initPairsOf SDI SD = .ok (SD.map (fun kv => (locName SDI kv.1, kv.2))) ∧
    svFold
      (dupdateMany
        (L.filter (fun kv => !(decide (kv.1 ∈ P.map Prod.fst) &&
          decide (locName L kv.1 ∈ dvalues SDI))))
        (stateDictInitialLocOf SDI))
      (dupdateMany
        (P.filter (fun kv => !(decide (kv.1 ∈ P.map Prod.fst) &&
          decide (locName L kv.1 ∈ dvalues SDI))))
        (SD.map (fun kv => (locName SDI kv.1, kv.2)))) [] =
      .ok (specContinuationOverrides L SDI P SD) := by
  refine ⟨reduceAux_characterization L SDI P P L hLtot,
    initPairsOf_characterization SDI SD
      (fun kv h' => hSDItot kv.1 (List.mem_map_of_mem Prod.fst h')), ?_⟩
  have hpdr_simp : P.filter (fun kv => !(decide (kv.1 ∈ P.map Prod.fst) &&
        decide (locName L kv.1 ∈ dvalues SDI))) =
      P.filter (fun kv => !(decide (locName L kv.1 ∈ dvalues SDI))) := by
    refine List.filter_congr ?_
    intro kv hkv
    simp [List.mem_map_of_mem Prod.fst hkv]
  have hndB : NodupKeys (SD.map (fun kv => (locName SDI kv.1, kv.2))) :=
    stateMapped_nodupKeys hSDnd hSDItot hSDIv
  have hBk : ∀ k ∈ dkeys (SD.map (fun kv => (locName SDI kv.1, kv.2))), k ∈ dvalues SDI :=
    stateMapped_keys_mem_values hSDItot
  have hfreshB : ∀ k ∈ dkeys (SD.map (fun kv => (locName SDI kv.1, kv.2))),
      k ∉ dkeys (P.filter (fun kv => !(decide (kv.1 ∈ P.map Prod.fst) &&
        decide (locName L kv.1 ∈ dvalues SDI)))) := by
    intro k hk hmem
    rw [mem_dkeys_iff] at hmem
    obtain ⟨v, hv⟩ := hmem
    have hvP : (k, v) ∈ P := (List.mem_filter.mp hv).1
    exact hdisj (k, v) hvP (hBk k hk)
  have hMod : dupdateMany
      (P.filter (fun kv => !(decide (kv.1 ∈ P.map Prod.fst) &&
        decide (locName L kv.1 ∈ dvalues SDI))))
      (SD.map (fun kv => (locName SDI kv.1, kv.2))) =
      (P.filter (fun kv => !(decide (kv.1 ∈ P.map Prod.fst) &&
        decide (locName L kv.1 ∈ dvalues SDI)))) ++
      (SD.map (fun kv => (locName SDI kv.1, kv.2))) :=
    dupdateMany_fresh hfreshB hndB
  have hlocMod_par : ∀ kv ∈ P.filter (fun kv => !(decide (kv.1 ∈ P.map Prod.fst) &&
        decide (locName L kv.1 ∈ dvalues SDI))),
      dlookup (dupdateMany
        (L.filter (fun kv => !(decide (kv.1 ∈ P.map Prod.fst) &&
          decide (locName L kv.1 ∈ dvalues SDI))))
        (stateDictInitialLocOf SDI)) kv.1 = dlookup L kv.1 := by
    intro kv hkv
    rw [hpdr_simp] at hkv
    obtain ⟨hkvP, hcond⟩ := List.mem_filter.mp hkv
    have hnotin : kv.1 ∉ dkeys (stateDictInitialLocOf SDI) := by
      intro hmem
      exact hdisj kv hkvP (stateDictInitialLocOf_keys_subset SDI kv.1 hmem)
    rw [dlookup_dupdateMany_of_not_mem hnotin]
    refine dlookup_filter ?_
    intro b hb hbk
    have hcond2 : decide (locName L b.1 ∈ dvalues SDI) = false := by
      rw [hbk]
      simpa using hcond
    simp [hcond2]
  have hlocMod_B : ∀ kv ∈ SD.map (fun kv => (locName SDI kv.1, kv.2)),
      dlookup (dupdateMany
        (L.filter (fun kv => !(decide (kv.1 ∈ P.map Prod.fst) &&
          decide (locName L kv.1 ∈ dvalues SDI))))
        (stateDictInitialLocOf SDI)) kv.1 = some kv.1 := by
    intro kv hkv
    have hkmem : kv.1 ∈ dvalues SDI := hBk kv.1 (List.mem_map_of_mem Prod.fst hkv)
    have hlook : dlookup (stateDictInitialLocOf SDI) kv.1 = some kv.1 := by
      rw [stateDictInitialLocOf_lookup, if_pos hkmem]
    exact dlookup_dupdateMany_of_mem (stateDictInitialLocOf_nodupKeys SDI)
      (mem_of_dlookup_eq_some hlook)
  rw [hMod]
  rw [svFold_characterization _ _ _ ?_]
  · have hmap : (((P.filter (fun kv => !(decide (kv.1 ∈ P.map Prod.fst) &&
          decide (locName L kv.1 ∈ dvalues SDI)))) ++
        (SD.map (fun kv => (locName SDI kv.1, kv.2)))).map
          (fun kv => (locName (dupdateMany
            (L.filter (fun kv => !(decide (kv.1 ∈ P.map Prod.fst) &&
              decide (locName L kv.1 ∈ dvalues SDI))))
            (stateDictInitialLocOf SDI)) kv.1, kv.2))) =
        ((P.filter (fun kv => !(decide (locName L kv.1 ∈ dvalues SDI)))).map
          (fun kv => (locName L kv.1, kv.2))) ++
        (SD.map (fun kv => (locName SDI kv.1, kv.2))) := by
      rw [List.map_append]
      congr 1
      · rw [List.map_congr_left (fun kv hkv => by
            rw [locName, hlocMod_par kv hkv, ← locName]), hpdr_simp]
      · refine Eq.trans (List.map_congr_left ?_) (List.map_id _)
        intro kv hkv
        show (locName _ kv.1, kv.2) = kv
        rw [locName, hlocMod_B kv hkv]
        rfl
    rw [hmap]
    have hndA : (dkeys ((P.filter (fun kv =>
        !(decide (locName L kv.1 ∈ dvalues SDI)))).map
          (fun kv => (locName L kv.1, kv.2)))).Nodup := by
      have hkeysA : dkeys ((P.filter (fun kv =>
          !(decide (locName L kv.1 ∈ dvalues SDI)))).map
            (fun kv => (locName L kv.1, kv.2))) =
          (P.filter (fun kv => !(decide (locName L kv.1 ∈ dvalues SDI)))).map
            (fun kv => locName L kv.1) := by
        rw [dkeys, List.map_map]
        rfl
      rw [hkeysA]
      exact List.Nodup.sublist
        (List.Sublist.map (fun kv => locName L kv.1) (List.filter_sublist P)) hlocnd
    have hAnotin : ∀ a ∈ dkeys ((P.filter (fun kv =>
        !(decide (locName L kv.1 ∈ dvalues SDI)))).map
          (fun kv => (locName L kv.1, kv.2))), a ∉ dvalues SDI := by
      intro a ha
      rw [mem_dkeys_iff] at ha
      obtain ⟨v, hv⟩ := ha
      rw [List.mem_map] at hv
      obtain ⟨kv, hkv, heq⟩ := hv
      obtain ⟨hkvP, hcond⟩ := List.mem_filter.mp hkv
      have : a = locName L kv.1 := (congrArg Prod.fst heq).symm
      rw [this]
      simpa using hcond
    have hndAB : NodupKeys (((P.filter (fun kv =>
        !(decide (locName L kv.1 ∈ dvalues SDI)))).map
          (fun kv => (locName L kv.1, kv.2))) ++
        (SD.map (fun kv => (locName SDI kv.1, kv.2)))) := by
      show (dkeys _).Nodup
      rw [dkeys_append]
      refine List.Nodup.append hndA hndB ?_
      intro a ha hb
      exact hAnotin a ha (hBk a hb)
    rw [dupdateMany_nil_of_nodup hndAB]
    rw [specContinuationOverrides, ← dupdateMany_append, dupdateMany_nil_of_nodup hndAB]
  · intro kv hkv
    rcases List.mem_append.mp hkv with hh | hh
    · rw [hlocMod_par kv hh]
      rw [hpdr_simp] at hh
      exact hLtot kv (List.mem_filter.mp hh).1
    · rw [hlocMod_B kv hh]
      rfl

end FmuExplore

namespace FmuExplore

theorem simu_cont_done_char (ctx : Ctx) (fmu : FmuCall → Except Unit SimRes)
    (diagrams : List Name) (st : St) (d ncp : ℚ) (mode : Name)
    (hmode : mode ∈ contModeNames)
    (hP : NodupKeys st.parDict)
    (hLtot : ∀ kv ∈ st.parDict, (dlookup ctx.parLocation kv.1).isSome)
    (hSDnd : NodupKeys st.stateDict)
    (hSDItot : ∀ k ∈ dkeys st.stateDict, (dlookup ctx.stateDictInitial k).isSome)
    (hSDIv : (dvalues ctx.stateDictInitial).Nodup)
    (hdisj : ∀ kv ∈ st.parDict, kv.1 ∉ dvalues ctx.stateDictInitial)
    (hlocnd : (st.parDict.map (fun kv => locName ctx.parLocation kv.1)).Nodup)
    (hfmu : ∀ c r, fmu c = .ok r →
      (dlookup r.cols (("time").toList)).bind List.getLast? = some c.stop_time) :
    ∀ call st', simu ctx fmu diagrams st d mode ncp = .done call st' →
      call.start_values = specContinuationOverrides ctx.parLocation ctx.stateDictInitial
        st.parDict st.stateDict ∧
      call.start_time = st.prevFinalTime ∧
      call.stop_time = st.prevFinalTime + d ∧
      st'.prevFinalTime = st.prevFinalTime + d := by
  intro call st' h
  obtain ⟨hred, hip, hsv⟩ := cont_start_values hP hLtot hSDnd hSDItot hSDIv hdisj hlocnd
  unfold simu at h
  rw [if_neg (cont_not_fresh hmode), if_pos hmode] at h
  by_cases hz : st.prevFinalTime = 0
  · rw [if_pos hz] at h
    exact absurd h (by simp)
  · rw [if_neg hz] at h
    split at h
    · rename_i e heq
      rw [hred] at heq
      exact absurd heq (by simp)
    · rename_i pdr plr heq
      rw [hred] at heq
      injection heq with heq2
      obtain ⟨h4, h5⟩ := Prod.mk.injEq .. ▸ heq2
      subst h4
      subst h5
      split at h
      · rename_i e heqip
        rw [hip] at heqip
        exact absurd heqip (by simp)
      · rename_i ip heqip
        rw [hip] at heqip
        injection heqip with heqip2
        subst heqip2
        split at h
        · rename_i e heqsv
          rw [hsv] at heqsv
          exact absurd heqsv (by simp)
        · rename_i sv heqsv
          rw [hsv] at heqsv
          injection heqsv with heqsv2
          subst heqsv2
          split at h
          · exact absurd h (by simp)
          · rename_i res heqf
            obtain ⟨hc, hpd, htime, hkeys, hsim, hsv2⟩ := postRun_done h
            subst hc
            refine ⟨rfl, rfl, rfl, ?_⟩
            have hstop := hfmu _ res heqf
            rw [hstop] at htime
            injection htime with ht
            exact ht.symm

end FmuExplore

namespace FmuExplore

/-- Claim C1: for a continuation-mode run (necessarily after a successful
fresh run, since the cursor must be non-zero for anything to happen), the
override set passed to the external model equals the reduced Parameter
Store (every parameter whose location coincides with a derived
initial-value location removed) combined with the current State Entry
values mapped through the derived initial-value locations; the run covers
`[cursor, cursor + duration]`; and after a fresh run followed by a
continuation of duration `d2` the cursor equals
`cursor_after_fresh + d2` (assuming the collaborator's result table ends
at the requested stop time). The second conjunct states the composed
fresh-then-continuation scenario, where the State Entry values carried
into the overrides are the fresh run's end values. -/
theorem C1_continuation_overrides_and_cursor (ctx : Ctx)
    (fmu : FmuCall → Except Unit SimRes) (diagrams : List Name) (st : St)
    (d1 d2 ncp : ℚ) (mode1 mode2 : Name)
    (hmode1 : mode1 ∈ freshModeNames) (hmode2 : mode2 ∈ contModeNames)
    (hP : NodupKeys st.parDict)
    (hLtot : ∀ kv ∈ st.parDict, (dlookup ctx.parLocation kv.1).isSome)
    (hSDnd : NodupKeys st.stateDict)
    (hSDItot : ∀ k ∈ dkeys st.stateDict, (dlookup ctx.stateDictInitial k).isSome)
    (hSDIv : (dvalues ctx.stateDictInitial).Nodup)
    (hdisj : ∀ kv ∈ st.parDict, kv.1 ∉ dvalues ctx.stateDictInitial)
    (hlocnd : (st.parDict.map (fun kv => locName ctx.parLocation kv.1)).Nodup)
    (hfmu : ∀ c r, fmu c = .ok r →
      (dlookup r.cols (("time").toList)).bind List.getLast? = some c.stop_time) :
    (∀ call st', simu ctx fmu diagrams st d2 mode2 ncp = .done call st' →
      call.start_values = specContinuationOverrides ctx.parLocation
        ctx.stateDictInitial st.parDict st.stateDict ∧
      call.start_time = st.prevFinalTime ∧
      call.stop_time = st.prevFinalTime + d2 ∧
      st'.prevFinalTime = st.prevFinalTime + d2) ∧
    (∀ call1 st1 call2 st2,
      simu ctx fmu diagrams st d1 mode1 ncp = .done call1 st1 →
      simu ctx fmu diagrams st1 d2 mode2 ncp = .done call2 st2 →
      call2.start_values = specContinuationOverrides ctx.parLocation
        ctx.stateDictInitial st1.parDict st1.stateDict ∧
      call2.start_time = st1.prevFinalTime ∧
      call2.stop_time = st1.prevFinalTime + d2 ∧
      st2.prevFinalTime = st1.prevFinalTime + d2) := by
  refine ⟨simu_cont_done_char ctx fmu diagrams st d2 ncp mode2 hmode2 hP hLtot hSDnd
    hSDItot hSDIv hdisj hlocnd hfmu, ?_⟩
  intro call1 st1 call2 st2 h1 h2
  obtain ⟨hpd, hkeys⟩ := simu_done_preserves h1
  refine simu_cont_done_char ctx fmu diagrams st1 d2 ncp mode2 hmode2 ?_ ?_ ?_ ?_ hSDIv
    ?_ ?_ hfmu call2 st2 h2
  · show (dkeys st1.parDict).Nodup
    rw [hpd]
    exact hP
  · simp only [hpd]
    exact hLtot
  · show (dkeys st1.stateDict).Nodup
    rw [hkeys]
    exact hSDnd
  · simp only [hkeys]
    exact hSDItot
  · simp only [hpd]
    exact hdisj
  · rw [hpd]
    exact hlocnd

end FmuExplore

namespace FmuExplore

/-! ### Concrete session for the C1 witness -/

def catalogW : List ModelVar :=
  [⟨("bioreactor.m[1]").toList, Causality.localc, Variability.continuous, some 1, none⟩]

def ctxW : Ctx :=
  ⟨catalogW,
    [((("Y").toList), ("bioreactor.culture.Y").toList),
     ((("VX_start").toList), ("bioreactor.m_start[1]").toList)],
    [((("bioreactor.m[1]").toList), ("bioreactor.m_start[1]").toList)],
    []⟩

def stW : St :=
  ⟨[((("Y").toList), some (1/2)), ((("VX_start").toList), some 1)],
    [((("bioreactor.m[1]").toList), none)], 0, none, none⟩

/-- A collaborator that integrates to exactly the requested stop time and
ends the single state at 42. -/
def fmuW : FmuCall → Except Unit SimRes := fun c =>
  .ok ⟨[((("time").toList), [c.start_time, c.stop_time]),
        ((("bioreactor.m[1]").toList), [1, 42])]⟩

def sv1W : Dict Name Val :=
  [((("bioreactor.culture.Y").toList), some (1/2)),
   ((("bioreactor.m_start[1]").toList), some 1)]

def res1W : SimRes :=
  ⟨[((("time").toList), [0, 5]), ((("bioreactor.m[1]").toList), [1, 42])]⟩

def call1W : FmuCall := ⟨0, 5, 5 / 500, sv1W, [("bioreactor.m[1]").toList]⟩

def st1W : St :=
  ⟨[((("Y").toList), some (1/2)), ((("VX_start").toList), some 1)],
    [((("bioreactor.m[1]").toList), some 42)], 5, some res1W, some sv1W⟩

def sv2W : Dict Name Val :=
  [((("bioreactor.culture.Y").toList), some (1/2)),
   ((("bioreactor.m_start[1]").toList), some 42)]

def res2W : SimRes :=
  ⟨[((("time").toList), [5, 5 + 3]), ((("bioreactor.m[1]").toList), [1, 42])]⟩

def call2W : FmuCall := ⟨5, 5 + 3, 3 / 500, sv2W, [("bioreactor.m[1]").toList]⟩

def st2W : St :=
  ⟨[((("Y").toList), some (1/2)), ((("VX_start").toList), some 1)],
    [((("bioreactor.m[1]").toList), some 42)], 5 + 3, some res2W, some sv2W⟩

end FmuExplore

namespace FmuExplore

/-- Witness for C1: the concrete fresh run over `[0, 5]` followed by the
continuation over `[5, 8]`: the continuation override set carries `Y`'s
value and the state's end value `42` (not its default `1`), and the cursor
advances from `5` to `5 + 3`. -/
theorem C1_continuation_overrides_and_cursor_witness :
    simu ctxW fmuW [] stW 5 (("init").toList) 500 = .done call1W st1W ∧
    simu ctxW fmuW [] st1W 3 (("cont").toList) 500 = .done call2W st2W ∧
    call2W.start_values = specContinuationOverrides ctxW.parLocation
      ctxW.stateDictInitial st1W.parDict st1W.stateDict ∧
    call2W.start_time = st1W.prevFinalTime ∧
    call2W.stop_time = st1W.prevFinalTime + 3 ∧
    st2W.prevFinalTime = st1W.prevFinalTime + 3 := by
  have h1 : simu ctxW fmuW [] stW 5 (("init").toList) 500 = .done call1W st1W := by rfl
  have h2 : simu ctxW fmuW [] st1W 3 (("cont").toList) 500 = .done call2W st2W := by rfl
  have hfmu : ∀ c r, fmuW c = .ok r →
      (dlookup r.cols (("time").toList)).bind List.getLast? = some c.stop_time := by
    intro c r hcr
    injection hcr with hcr2
    subst hcr2
    rfl
  have h := (C1_continuation_overrides_and_cursor ctxW fmuW [] stW 5 3 500
    (("init").toList) (("cont").toList) (by decide) (by decide)
    (by show (dkeys stW.parDict).Nodup; decide) (by decide)
    (by show (dkeys stW.stateDict).Nodup; decide) (by decide)
    (by decide) (by decide) (by decide) hfmu).2
    call1W st1W call2W st2W h1 h2
  exact ⟨h1, h2, h.1, h.2.1, h.2.2.1, h.2.2.2⟩

end FmuExplore
